import Mathlib

/-!
# tabler: the structural scanner `InputFile.Init`, `InputFile.Write` and the template helpers

A shallow embedding of `lib/input.go` and `lib/templates.go`.

* Go strings are lists of characters (`Str`).
* The syntax tree handed back by `parser.ParseFile` is a plain data type holding the
  parts of `go/ast` that `Init` inspects.
* `Init` mutates its receiver and either returns `nil`, returns an error, or stops with
  a run-time panic; the embedding returns the final receiver together with an `Outcome`.
-/

set_option autoImplicit false

namespace Tabler

/-- Go strings, as character lists. -/
abbrev Str := List Char

/-! ## The pieces of the Go standard library that the scanner calls -/

/-- Go's `strings.HasSuffix`. -/
def hasSuffix (s suffix : Str) : Bool := suffix.isSuffixOf s

/-- Go's `strings.HasPrefix`. -/
def hasPrefix (s pre : Str) : Bool := pre.isPrefixOf s

/-- Go's `strings.TrimSuffix`. -/
def trimSuffix (s suffix : Str) : Str :=
  if hasSuffix s suffix then s.take (s.length - suffix.length) else s

/-- Go's `strings.TrimPrefix`. -/
def trimPrefix (s pre : Str) : Str :=
  if hasPrefix s pre then s.drop pre.length else s

/-- Go's `strings.Replace(t, " ", ".", -1)`: every space becomes a dot. -/
def replaceSpaces (t : Str) : Str := t.map fun c => if c = ' ' then '.' else c

/-- Go's `strings.Contains`. -/
def stringsContains : Str → Str → Bool
  | [], sub => sub.isEmpty
  | c :: s, sub => sub.isPrefixOf (c :: s) || stringsContains s sub

/-- Go's `os.IsPathSeparator` on a Unix system. -/
def isSep (c : Char) : Bool := c = '/'

/-- Go's `filepath.Split`: the directory part runs up to and including the last separator,
the file part is what follows it. -/
def filepathSplit (p : Str) : Str × Str :=
  ((p.reverse.dropWhile fun c => !isSep c).reverse,
   (p.reverse.takeWhile fun c => !isSep c).reverse)

/-- The inner loop of the `..` case of `filepath.Clean`:
`for out.w > dotdot && !os.IsPathSeparator(out.index(out.w)) { out.w-- }`. -/
def backtrackLoop (out : Str) (dotdot : Nat) : Nat → Nat
  | 0 => 0
  | w + 1 =>
    if w + 1 > dotdot && !isSep (out.getD (w + 1) '/') then backtrackLoop out dotdot w
    else w + 1

/-- The main loop of `filepath.Clean` over the unread part of the path. `out` is the
written part of the output buffer and `dotdot` the index below which the output may not
be cut back. The flag `inElem` is true while the loop that copies a real path element
(`for ; r < n && !os.IsPathSeparator(path[r]); r++`) is running. -/
def cleanLoop (rooted : Bool) : Str → Bool → Str → Nat → Str
  | [], _, out, _ => out
  | c :: rest, true, out, dotdot =>
    if isSep c then cleanLoop rooted rest false out dotdot
    else cleanLoop rooted rest true (out ++ [c]) dotdot
  | c :: rest, false, out, dotdot =>
    if isSep c then
      -- empty path element
      cleanLoop rooted rest false out dotdot
    else if c = '.' && (rest.isEmpty || isSep (rest.headD '/')) then
      -- . element
      cleanLoop rooted rest false out dotdot
    else
      match rest with
      | d :: rest2 =>
        if c = '.' && d = '.' && (rest2.isEmpty || isSep (rest2.headD '/')) then
          -- .. element: remove to last separator
          if out.length > dotdot then
            cleanLoop rooted rest2 false
              (out.take (backtrackLoop out dotdot (out.length - 1))) dotdot
          else if !rooted then
            let out1 := (if out.length > 0 then out ++ ['/'] else out) ++ ['.', '.']
            cleanLoop rooted rest2 false out1 out1.length
          else cleanLoop rooted rest2 false out dotdot
        else
          -- real path element
          cleanLoop rooted (d :: rest2) true
            ((if rooted && out.length != 1 || !rooted && out.length != 0
              then out ++ ['/'] else out) ++ [c]) dotdot
      | [] =>
        cleanLoop rooted [] true
          ((if rooted && out.length != 1 || !rooted && out.length != 0
            then out ++ ['/'] else out) ++ [c]) dotdot

/-- Go's `filepath.Clean` on a Unix system (no volume names, `FromSlash` is the identity). -/
def filepathClean (path : Str) : Str :=
  match path with
  | [] => ['.']
  | c :: _ =>
    let rooted := isSep c
    let out := cleanLoop rooted path false (if rooted then ['/'] else []) (if rooted then 1 else 0)
    if out.length = 0 then ['.'] else out

/-- Go's `filepath.Join` of two elements: the elements from the first non-empty one on are
joined with the separator and the result is cleaned. -/
def filepathJoin (a b : Str) : Str :=
  if a ≠ [] then filepathClean (a ++ '/' :: b)
  else if b ≠ [] then filepathClean b
  else []

/-! ## `lib/templates.go`: the tag pattern -/

/-- The character class `[0-9a-zA-Z=&\(\)]` of `tagPattern`. -/
def tagClass (c : Char) : Bool :=
  ('0' ≤ c && c ≤ '9') || ('a' ≤ c && c ≤ 'z') || ('A' ≤ c && c ≤ 'Z') ||
    c = '=' || c = '&' || c = '(' || c = ')'

/-- The literal text that `tagPattern` starts with. -/
def tagOpen : Str := ['t', 'a', 'b', 'l', 'e', 'r', ':', '"']

/-- A match of `tagPattern` anchored at the start of `s`, giving capture group 1. After
the opening literal the starred class takes the longest run of class characters; a
shorter run would be followed by a class character and not by the closing quote, so no
other way of matching at this position exists. -/
def tagMatchHere (s : Str) : Option Str :=
  if hasPrefix s tagOpen then
    match (s.drop tagOpen.length).dropWhile tagClass with
    | '"' :: _ => some ((s.drop tagOpen.length).takeWhile tagClass)
    | _ => none
  else none

/-- The call `tagPattern.FindStringSubmatch(s)`, reduced to what `Init` uses of it: `none` when
the result is nil (no match, so its length is not 2), and `some match[1]` for the
leftmost match. -/
def tagPatternFind : Str → Option Str
  | [] => none
  | c :: s =>
    match tagMatchHere (c :: s) with
    | some payload => some payload
    | none => tagPatternFind s

/-! ## The syntax tree -/

/-- A type expression below a possible leading star, as far as `fmt.Sprintf("%v", _)`
tells them apart. -/
inductive Expr where
  /-- An `*ast.Ident`: printed through its `String` method, that is as its name. -/
  | ident (name : Str)
  /-- An `*ast.SelectorExpr` whose operand and selector are identifiers, `pkg.T`. -/
  | selector (pkg sel : Str)
  /-- Any other expression node, given by the text `%v` prints for it. -/
  | other (printed : Str)
  deriving DecidableEq, Repr

/-- The type of a struct field: `field.Type.(*ast.StarExpr)` succeeds on `star` and
fails on `plain`. -/
inductive FieldType where
  | star (x : Expr)
  | plain (x : Expr)
  deriving DecidableEq, Repr

/-- An `*ast.Field`: the names it declares, its type and the source text of its tag
literal (`field.Tag.Value`, quotes included) when it has one. `Typ` is the field `Type`. -/
structure Field where
  Names : List Str
  Typ : FieldType
  Tag : Option Str
  deriving DecidableEq, Repr

/-- The `Type` of a type spec: a struct type with its field list (the parser always
fills in `Fields`), or something else. -/
inductive TypeExpr where
  | struct (fields : List Field)
  | other
  deriving DecidableEq, Repr

/-- An `*ast.TypeSpec`; `Name` may be nil and `Typ` is the field `Type`. -/
structure TypeSpec where
  Name : Option Str
  Typ : TypeExpr
  deriving DecidableEq, Repr

/-- An `ast.Spec`: a type spec, or an import or value spec. -/
inductive Spec where
  | type (ts : TypeSpec)
  | other
  deriving DecidableEq, Repr

/-- An `*ast.GenDecl`: the texts of the comments of its doc comment group (when it has
one) and its specs. -/
structure GenDecl where
  Doc : Option (List Str)
  Specs : List Spec
  deriving DecidableEq, Repr

/-- An `ast.Decl`: a general declaration, or a function or bad declaration. -/
inductive Decl where
  | gen (tdecl : GenDecl)
  | other
  deriving DecidableEq, Repr

/-- An `*ast.File`: the package name identifier (possibly nil) and the declarations. -/
structure File where
  Name : Option Str
  Decls : List Decl
  deriving DecidableEq, Repr

/-! ## The model -/

/-- Modelled from the spec: the `Column` type, whose declaration is not among the
sources (`Typ` is the field `Type`). `Init` itself reads `IsPrimary` only. -/
structure Column where
  Name : Str
  Typ : Str
  SQLType : Str
  IsPrimary : Bool
  deriving DecidableEq, Repr

/-- Modelled from the spec: the `Table` type, whose declaration is not among the
sources; `Init` uses exactly these five fields. -/
structure Table where
  Name : Str
  Columns : List Column
  PrimaryKeys : List Column
  HasConn : Bool
  Conn : Str
  deriving DecidableEq, Repr

/-- The type `InputFile` of `lib/input.go`. -/
structure InputFile where
  PackageName : Str
  BuildTarget : Str
  Tables : List Table
  deriving DecidableEq, Repr

/-- How a call of `Init` ends: it returns nil, returns an error, or panics. -/
inductive Outcome where
  | ok
  | error (msg : Str)
  | panic
  deriving DecidableEq, Repr

/-- The state of a table under construction: still going, stopped by an error return,
or stopped by a panic. -/
inductive Scan where
  | done (table : Table)
  | error (msg : Str)
  | panic
  deriving DecidableEq, Repr

/-- The tag interpreter `Column.init(name, ftype, tag)` as `Init` sees it: it fills in a
column or returns an error. -/
abbrev ColInit := Str → Str → Str → Except Str Column

/-! ## `lib/input.go` -/

/-- The function `printableType` of `lib/input.go`. -/
def printableType (t : Str) : Str :=
  let t := trimPrefix t ['&', '\x7b']
  let t := trimSuffix t ['\x7d']
  replaceSpaces t

/-- The text `fmt.Sprintf("%v", e)` for a type expression. -/
def sprintV : Expr → Str
  | Expr.ident name => name
  | Expr.selector pkg sel => ['&', '\x7b'] ++ pkg ++ [' '] ++ sel ++ ['\x7d']
  | Expr.other printed => printed

/-- The printable type of a field (lines 98 to 104 of `lib/input.go`). -/
def fieldType (field : Field) : Str :=
  match field.Typ with
  | FieldType.star x => '*' :: printableType (sprintV x)
  | FieldType.plain x => printableType (sprintV x)

/-- The recognised type of a database handle. -/
def connType : Str := ['*', 's', 'q', 'l', '.', 'D', 'B']

/-- The check for a database reference (lines 106 to 110); `field.Names[0]` panics
on a field without names. -/
def scanConn (table : Table) (field : Field) : Scan :=
  if fieldType field = connType then
    match field.Names with
    | [] => Scan.panic
    | n :: _ => Scan.done { table with HasConn := true, Conn := n }
  else Scan.done table

/-- The message of the error returned for a rejected tag. -/
def tagErrorMsg (payload err : Str) : Str :=
  "Unable to parse tag '".toList ++ payload ++ "': ".toList ++ err

/-- The check for a tabler tag (lines 112 to 125). -/
def scanTag (colInit : ColInit) (table : Table) (field : Field) : Scan :=
  match field.Tag with
  | none => Scan.done table
  | some tag =>
    match tagPatternFind tag with
    | none => Scan.done table
    | some payload =>
      match field.Names with
      | [] => Scan.panic
      | n :: _ =>
        match colInit n (fieldType field) payload with
        | Except.error err => Scan.error (tagErrorMsg payload err)
        | Except.ok col =>
          Scan.done { table with
            Columns := table.Columns ++ [col]
            PrimaryKeys :=
              if col.IsPrimary then table.PrimaryKeys ++ [col] else table.PrimaryKeys }

/-- The body of the loop over the fields of a struct (lines 96 to 126). -/
def scanField (colInit : ColInit) (table : Table) (field : Field) : Scan :=
  match scanConn table field with
  | Scan.done table1 => scanTag colInit table1 field
  | Scan.error msg => Scan.error msg
  | Scan.panic => Scan.panic

/-- The loop over the fields of a struct, in declaration order. -/
def scanFields (colInit : ColInit) : List Field → Table → Scan
  | [], table => Scan.done table
  | field :: rest, table =>
    match scanField colInit table field with
    | Scan.done table1 => scanFields colInit rest table1
    | Scan.error msg => Scan.error msg
    | Scan.panic => Scan.panic

/-- The search for the `@table` decorator (lines 66 to 73). -/
def isTable (doc : List Str) : Bool :=
  doc.any fun text => stringsContains text "@table".toList

/-- The name of the table (lines 80 to 89): the name of the first type spec that has a
name identifier, and the empty string when there is none. -/
def tableName : List Spec → Str
  | [] => []
  | Spec.type ts :: rest =>
    match ts.Name with
    | none => tableName rest
    | some name => name
  | Spec.other :: rest => tableName rest

/-- The message of the error returned for a marked declaration without a name. -/
def noNameMsg : Str := "Unable to extract name from a table struct.".toList

/-- A fresh `Table{}` with its name set. -/
def newTable (name : Str) : Table :=
  { Name := name, Columns := [], PrimaryKeys := [], HasConn := false, Conn := [] }

/-- The body of the loop over the declarations (lines 60 to 131). `Outcome.ok` stands
for going on with the next declaration. -/
def scanDecl (colInit : ColInit) (i : InputFile) (decl : Decl) : InputFile × Outcome :=
  match decl with
  | Decl.other => (i, Outcome.ok)
  | Decl.gen tdecl =>
    match tdecl.Doc with
    | none => (i, Outcome.ok)
    | some doc =>
      if !isTable doc then (i, Outcome.ok)
      else if tableName tdecl.Specs = [] then (i, Outcome.error noNameMsg)
      else
        match tdecl.Specs with
        | Spec.type ts :: _ =>
          match ts.Typ with
          | TypeExpr.struct fields =>
            match scanFields colInit fields (newTable (tableName tdecl.Specs)) with
            | Scan.done table =>
              if table.Columns.length > 0 then
                ({ i with Tables := i.Tables ++ [table] }, Outcome.ok)
              else (i, Outcome.ok)
            | Scan.error msg => (i, Outcome.error msg)
            | Scan.panic => (i, Outcome.panic)
          | TypeExpr.other => (i, Outcome.panic)
        | _ => (i, Outcome.panic)

/-- The loop over the declarations of the file (lines 56 to 134). -/
def scanDecls (colInit : ColInit) : List Decl → InputFile → InputFile × Outcome
  | [], i => (i, Outcome.ok)
  | decl :: rest, i =>
    match scanDecl colInit i decl with
    | (i1, Outcome.ok) => scanDecls colInit rest i1
    | stopped => stopped

/-- The message of the error returned for a path without the `.go` suffix. -/
def notGoMsg (path : Str) : Str := "File '".toList ++ path ++ "' is not a Go file.".toList

/-- The suffix `.go`. -/
def goExt : Str := ['.', 'g', 'o']

/-- The suffix of a generated file. -/
def tablerExt : Str := "_tabler.go".toList

/-- The method `InputFile.Init`. `parseFile path` stands for `parser.ParseFile` on the path: the
syntax tree (nil when there is none) and the error, which `Init` drops. -/
def Init (colInit : ColInit) (parseFile : Str → Option File × Option Str)
    (i : InputFile) (path : Str) : InputFile × Outcome :=
  if hasSuffix path goExt then
    let root := trimSuffix path goExt
    let i1 := { i with
      BuildTarget := filepathJoin (filepathSplit root).1 ((filepathSplit root).2 ++ tablerExt) }
    match (parseFile path).1 with
    | none => (i1, Outcome.panic)
    | some f =>
      let i2 :=
        match f.Name with
        | some name => { i1 with PackageName := name }
        | none => i1
      scanDecls colInit f.Decls i2
  else (i, Outcome.error (notGoMsg path))

/-! ## The tag interpreter and the example input -/

/-- Go's `strings.Split` at a one-character separator. -/
def splitOn (sep : Char) : Str → List Str
  | [] => [[]]
  | c :: s =>
    if c = sep then [] :: splitOn sep s
    else
      match splitOn sep s with
      | [] => [[c]]
      | h :: t => (c :: h) :: t

/-- Modelled from the spec: one `key=value` option of a tag payload applied to a column
(section 4.1). `columnType` is stored verbatim, `primary` takes `true` or `false`,
other keys are ignored, and an option that is no key/value pair is an error. -/
def applyOption (col : Column) (opt : Str) : Except Str Column :=
  match opt.dropWhile fun c => c ≠ '=' with
  | [] => Except.error opt
  | _ :: value =>
    if opt.takeWhile (fun c => c ≠ '=') = "columnType".toList then
      Except.ok { col with SQLType := value }
    else if opt.takeWhile (fun c => c ≠ '=') = "primary".toList then
      if value = "true".toList then Except.ok { col with IsPrimary := true }
      else if value = "false".toList then Except.ok { col with IsPrimary := false }
      else Except.error opt
    else Except.ok col

/-- Modelled from the spec: the options of a payload applied from left to right. -/
def applyOptions : List Str → Column → Except Str Column
  | [], col => Except.ok col
  | opt :: rest, col =>
    match applyOption col opt with
    | Except.ok col1 => applyOptions rest col1
    | Except.error err => Except.error err

/-- Modelled from the spec: `Column.init`, the tag interpreter of section 4.1, whose
source file is not among the sources. The payload is an ampersand-separated list of
`key=value` options; the column gets the field's name and normalised type. -/
def Column.init : ColInit := fun name ftype tag =>
  applyOptions (splitOn '&' tag)
    { Name := name, Typ := ftype, SQLType := [], IsPrimary := false }

/-- A field with one name, a plain identifier type and a tag in back quotes. -/
def taggedField (name typ tag : String) : Field :=
  { Names := [name.toList], Typ := FieldType.plain (Expr.ident typ.toList),
    Tag := some ('\x60' :: tag.toList ++ ['\x60']) }

/-- The declaration of `User` in `example/models.go`. -/
def userDecl : Decl :=
  Decl.gen
    { Doc := some ["// User stores user account information.".toList, "// @table".toList]
      Specs := [Spec.type
        { Name := some "User".toList
          Typ := TypeExpr.struct
            [ taggedField "ID" "string" "tabler:\"columnType=uuid&primary=true\"",
              taggedField "Email" "string" "tabler:\"columnType=varchar(128)\"",
              { Names := ["Created".toList]
                Typ := FieldType.plain (Expr.selector "time".toList "Time".toList)
                Tag := some "\x60tabler:\"columnType=timestamp\"\x60".toList } ] }] }

/-- The declaration of `Profile` in `example/models.go`. -/
def profileDecl : Decl :=
  Decl.gen
    { Doc := some ["// Profile stores user attributes.".toList, "// @table".toList]
      Specs := [Spec.type
        { Name := some "Profile".toList
          Typ := TypeExpr.struct
            [ taggedField "UserID" "string" "tabler:\"columnType=uuid&primary=true\"",
              taggedField "Attribute" "string" "tabler:\"columnType=varchar(64)&primary=true\"",
              taggedField "Value" "string" "tabler:\"columnType=varchar(256)\"" ] }] }

/-- The syntax tree of `example/models.go`: the import declaration and the two types. -/
def exampleFile : File :=
  { Name := some "models".toList
    Decls := [Decl.gen { Doc := none, Specs := [Spec.other] }, userDecl, profileDecl] }

/-- A parser that yields the given tree for every path, without an error. -/
def parseAs (f : File) : Str → Option File × Option Str := fun _ => (some f, none)

/-- An `InputFile{}` as `Init` is meant to be called on. -/
def emptyInput : InputFile := { PackageName := [], BuildTarget := [], Tables := [] }

/-! ## What the claims speak of -/

/-- The payload that `tagPattern` finds in the tag of a field, if the field has a tag
and the pattern matches it. -/
def tagPayload (field : Field) : Option Str := field.Tag.bind tagPatternFind

/-- A field is tagged when it carries a tag that `tagPattern` matches. -/
def isTagged (field : Field) : Bool := (tagPayload field).isSome

/-- The tagged fields of a struct, in declaration order. -/
def taggedFields (fields : List Field) : List Field := fields.filter isTagged

/-- The column `col` is what the tag interpreter makes of the tagged field `field`: it
is the result of `Column.init` on the first name of the field, its printable type and
its payload. -/
def FromField (colInit : ColInit) (field : Field) (col : Column) : Prop :=
  ∃ name rest payload, field.Names = name :: rest ∧ tagPayload field = some payload ∧
    colInit name (fieldType field) payload = Except.ok col

/-- The tag interpreter stores the name it is given in the column. -/
def KeepsName (colInit : ColInit) : Prop :=
  ∀ name ftype tag col, colInit name ftype tag = Except.ok col → col.Name = name

/-- A declaration is marked when it is a general declaration with a doc comment one of
whose comments contains `@table`. -/
def isMarked : Decl → Bool
  | Decl.gen tdecl =>
    match tdecl.Doc with
    | some doc => isTable doc
    | none => false
  | Decl.other => false

/-- The field list of a marked declaration whose first spec is a struct type. -/
def markedFields (decl : Decl) : Option (List Field) :=
  if isMarked decl then
    match decl with
    | Decl.gen tdecl =>
      match tdecl.Specs with
      | Spec.type ts :: _ =>
        match ts.Typ with
        | TypeExpr.struct fields => some fields
        | TypeExpr.other => none
      | _ => none
    | Decl.other => none
  else none

/-- The field lists of the marked structs of a file, in declaration order. -/
def markedStructs (decls : List Decl) : List (List Field) := decls.filterMap markedFields

/-- The table `table` is what the scan of the struct with the fields `fields` builds:
one column for each tagged field, in order, and the primary ones among them as
primary keys. -/
def BuiltFrom (colInit : ColInit) (fields : List Field) (table : Table) : Prop :=
  List.Forall₂ (FromField colInit) (taggedFields fields) table.Columns ∧
    table.PrimaryKeys = table.Columns.filter fun col => col.IsPrimary

/-- The marked structs that have at least one tagged field. -/
def keptStructs (decls : List Decl) : List (List Field) :=
  (markedStructs decls).filter fun fields => !(taggedFields fields).isEmpty

/-- The receiver with more tables appended. -/
def withTables (i : InputFile) (new : List Table) : InputFile :=
  { i with Tables := i.Tables ++ new }

/-- The build target that `Init` derives from a path with the `.go` suffix. -/
def buildTarget (path : Str) : Str :=
  filepathJoin (filepathSplit (trimSuffix path goExt)).1
    ((filepathSplit (trimSuffix path goExt)).2 ++ tablerExt)

/-- The receiver when the loop over the declarations starts. -/
def startState (i : InputFile) (path : Str) (pkg : Option Str) : InputFile :=
  match pkg with
  | some name => { i with BuildTarget := buildTarget path, PackageName := name }
  | none => { i with BuildTarget := buildTarget path }

/-- The tables that a call of `Init` has added to the receiver. -/
def gained (i : InputFile) (r : InputFile × Outcome) : List Table :=
  r.1.Tables.drop i.Tables.length

/-! ## Inputs used in the examples -/

/-- The path of the example file. -/
def examplePath : Str := "example/models.go".toList

/-- A column as the tag interpreter fills it in. -/
def mkColumn (name typ sqlType : String) (primary : Bool) : Column :=
  { Name := name.toList, Typ := typ.toList, SQLType := sqlType.toList, IsPrimary := primary }

/-- The table that the scan builds for `Profile` in `example/models.go`. -/
def profileTable : Table :=
  { Name := "Profile".toList
    Columns := [mkColumn "UserID" "string" "uuid" true,
      mkColumn "Attribute" "string" "varchar(64)" true,
      mkColumn "Value" "string" "varchar(256)" false]
    PrimaryKeys := [mkColumn "UserID" "string" "uuid" true,
      mkColumn "Attribute" "string" "varchar(64)" true]
    HasConn := false
    Conn := [] }

/-- A path without the `.go` suffix. -/
def textPath : Str := "example/models.txt".toList

/-- The example file followed by a function declaration and by a struct with the same
tagged fields as `User` whose doc comment lacks the marker. -/
def unmarkedFile : File :=
  { Name := some "models".toList
    Decls := [Decl.other,
      Decl.gen
        { Doc := some ["// Account is no table.".toList]
          Specs := [Spec.type
            { Name := some "Account".toList
              Typ := TypeExpr.struct
                [ taggedField "ID" "string" "tabler:\"columnType=uuid&primary=true\"",
                  taggedField "Email" "string" "tabler:\"columnType=varchar(128)\"" ] }] }] }

/-- A struct declaration `type name struct { fields }` with a doc comment; `more` holds
the further specs of the same group. -/
def structDecl (doc : List Str) (name : Option Str) (fields : List Field)
    (more : List Spec) : Decl :=
  Decl.gen
    { Doc := some doc
      Specs := Spec.type { Name := name, Typ := TypeExpr.struct fields } :: more }

/-- The source text of a tag literal in back quotes that holds `tabler:"payload"` and
nothing else. -/
def rawTag (payload : Str) : Str := '\x60' :: tagOpen ++ payload ++ ['"', '\x60']

/-- The example file followed by a marked variable declaration, which has no type
name. -/
def partialFile : File :=
  { Name := some "models".toList
    Decls := [userDecl, profileDecl,
      Decl.gen { Doc := some ["// @table".toList], Specs := [Spec.other] }] }

/-- A marked struct `Price` whose only field has a comma in its tag payload. -/
def priceFile : File :=
  { Name := some "models".toList
    Decls := [structDecl ["// @table".toList] (some "Price".toList)
      [taggedField "Amount" "string" "tabler:\"columnType=decimal(10,2)\""] []] }

/-- The field `DB *sql.DB` with a tabler tag. -/
def dbField : Field :=
  { Names := ["DB".toList]
    Typ := FieldType.star (Expr.selector "sql".toList "DB".toList)
    Tag := some (rawTag "columnType=text&primary=true".toList) }

/-- A marked struct `Store` whose connection field carries a tabler tag. -/
def storeFile : File :=
  { Name := some "models".toList
    Decls := [structDecl ["// @table".toList] (some "Store".toList) [dbField] []] }

/-- The table that the scan builds for `Store`. -/
def storeTable : Table :=
  { Name := "Store".toList
    Columns := [mkColumn "DB" "*sql.DB" "text" true]
    PrimaryKeys := [mkColumn "DB" "*sql.DB" "text" true]
    HasConn := true
    Conn := "DB".toList }

/-- The example file with a field of `User` replaced by one whose payload the tag
interpreter rejects. -/
def rejectedFile : File :=
  { Name := some "models".toList
    Decls := [profileDecl] ++
      structDecl ["// @table".toList] (some "User".toList)
        ([taggedField "ID" "string" "tabler:\"columnType=uuid&primary=true\""] ++
          taggedField "Email" "string" "tabler:\"primary=maybe\"" ::
          [taggedField "Created" "string" "tabler:\"columnType=timestamp\""]) [] ::
      [userDecl] }

/-! ## Further notions and inputs -/

/-- The table name that the scan extracts from a declaration. -/
def declName : Decl → Str
  | Decl.gen tdecl => tableName tdecl.Specs
  | Decl.other => []

/-- A marked struct `Key` whose only column is primary. -/
def keyFile : File :=
  { Name := some "models".toList
    Decls := [structDecl ["// @table".toList] (some "Key".toList)
      [taggedField "ID" "string" "tabler:\"columnType=uuid&primary=true\""] []] }

/-- The table that the scan builds for `Key`. -/
def keyTable : Table :=
  { Name := "Key".toList
    Columns := [mkColumn "ID" "string" "uuid" true]
    PrimaryKeys := [mkColumn "ID" "string" "uuid" true]
    HasConn := false
    Conn := [] }

/-- A parser run on a file that cannot be read: no syntax tree, and an error. -/
def parseUnreadable : Str → Option File × Option Str :=
  fun _ => (none, some "open example/models.go: no such file or directory".toList)

/-- A parser run that reports a syntax error and still hands back the tree of the
example file. -/
def parseWithError : Str → Option File × Option Str :=
  fun _ => (some exampleFile, some "example/models.go:22:1: expected declaration".toList)

/-- A field holds the database handle when its printable type is `*sql.DB`. -/
def isConn (field : Field) : Bool := fieldType field = connType

/-- The fields of a struct that hold the database handle, in declaration order. -/
def connFields (fields : List Field) : List Field := fields.filter isConn

/-- The table `table` is what the loop over the fields `fields` ends with when it starts
from a fresh table. -/
def ScannedFrom (colInit : ColInit) (fields : List Field) (table : Table) : Prop :=
  ∃ name, scanFields colInit fields (newTable name) = Scan.done table

/-- An untagged field `name *sql.DB`. -/
def connField (name : String) : Field :=
  { Names := [name.toList]
    Typ := FieldType.star (Expr.selector "sql".toList "DB".toList)
    Tag := none }

/-- A marked struct `Repo` with two connection fields around a tagged field. -/
def repoFile : File :=
  { Name := some "models".toList
    Decls := [structDecl ["// @table".toList] (some "Repo".toList)
      [connField "Primary",
        taggedField "ID" "string" "tabler:\"columnType=uuid&primary=true\"",
        connField "Replica"] []] }

/-- The table that the scan builds for `Repo`. -/
def repoTable : Table :=
  { Name := "Repo".toList
    Columns := [mkColumn "ID" "string" "uuid" true]
    PrimaryKeys := [mkColumn "ID" "string" "uuid" true]
    HasConn := true
    Conn := "Replica".toList }

/-- The field entry `A, B string` with one tabler tag. -/
def pairField : Field :=
  { Names := ["A".toList, "B".toList]
    Typ := FieldType.plain (Expr.ident "string".toList)
    Tag := some (rawTag "columnType=text".toList) }

/-- A marked struct `Pair` whose only field entry declares two names. -/
def pairFile : File :=
  { Name := some "models".toList
    Decls := [structDecl ["// @table".toList] (some "Pair".toList) [pairField] []] }

/-! ## `lib/templates.go`: the template helpers -/

/-- The bytes of a Go string. -/
abbrev Bytes := List Nat

/-- The UTF-8 encoding of a character, as Go stores it in a string. -/
def utf8Bytes (c : Char) : Bytes :=
  if c.toNat < 0x80 then [c.toNat]
  else if c.toNat < 0x800 then [0xC0 + c.toNat / 64, 0x80 + c.toNat % 64]
  else if c.toNat < 0x10000 then
    [0xE0 + c.toNat / 4096, 0x80 + c.toNat / 64 % 64, 0x80 + c.toNat % 64]
  else
    [0xF0 + c.toNat / 262144, 0x80 + c.toNat / 4096 % 64, 0x80 + c.toNat / 64 % 64,
      0x80 + c.toNat % 64]

/-- The bytes of the Go string that holds the given characters. -/
def goBytes : Str → Bytes
  | [] => []
  | c :: s => utf8Bytes c ++ goBytes s

/-- Go's `unicode.ToLower`: an ASCII rune is lowered by arithmetic (`A` to `Z` move up by
32), any other rune is mapped through the case table of the `unicode` package, which
is the parameter `toCase`. -/
def unicodeToLower (toCase : Char → Char) (r : Char) : Char :=
  if r.toNat ≤ 0x7F then r.toLower else toCase r

/-- Go's `strings.ToLower` on a valid UTF-8 string: every rune is mapped by
`unicode.ToLower`. -/
def stringsToLower (toCase : Char → Char) (s : Str) : Str := s.map (unicodeToLower toCase)

/-- The width of Go's `int` on a 64-bit platform: results wrap around. -/
def wrapInt (n : Int) : Int := (n + 2 ^ 63) % 2 ^ 64 - 2 ^ 63

/-- The template helper `plus1`. -/
def plus1 (x : Int) : Int := wrapInt (x + 1)

/-- The template helper `lower`. -/
def lower (toCase : Char → Char) (s : Str) : Str := stringsToLower toCase s

/-- The template helper `caller`: the slice `[0:1]` of the lowered string, which is its
first byte; on the empty string the slice expression panics (`none`). -/
def caller (toCase : Char → Char) (s : Str) : Option Bytes :=
  match goBytes (stringsToLower toCase s) with
  | [] => none
  | b :: _ => some [b]

/-- The entries of the case table for the Latin-1 block: the capital letters from
U+00C0 to U+00DE, U+00D7 apart, are lowered by 32. Runes of the other blocks are left
as they are here. -/
def latin1Lower (r : Char) : Char :=
  if (0xC0 ≤ r.toNat ∧ r.toNat ≤ 0xD6) ∨ (0xD8 ≤ r.toNat ∧ r.toNat ≤ 0xDE) then
    Char.ofNat (r.toNat + 32)
  else r

/-! ## `InputFile.Write` -/

/-- The method `InputFile.Write`. `execute i` stands for `tmpl.Execute(&buf, i)`: the
text that has reached the buffer and the error; `writeFile` stands for the error that
`ioutil.WriteFile` returns. The result lists the calls of `ioutil.WriteFile` (path and
data) and gives the error that `Write` returns. -/
def Write (execute : InputFile → Str × Option Str) (writeFile : Str → Str → Option Str)
    (i : InputFile) : List (Str × Str) × Option Str :=
  -- the error of `tmpl.Execute` is not looked at
  ([(i.BuildTarget, (execute i).1)], writeFile i.BuildTarget (execute i).1)

/-- A template execution that fails after the header of the document is rendered. -/
def failingExecute : InputFile → Str × Option Str := fun i =>
  ("// generated by tabler\npackage ".toList ++ i.PackageName ++ ['\n'],
    some "template: T:5:3: executing \"T\": error calling CreateTable".toList)

/-- A file system on which every write succeeds. -/
def writeSucceeds : Str → Str → Option Str := fun _ _ => none

/-- The receiver after `Init` has returned nil on the example file. -/
def exampleInput : InputFile :=
  (Init Column.init (parseAs exampleFile) emptyInput examplePath).1

/-- The names of the tables of a receiver, each with the names of its columns. -/
def tableShape (i : InputFile) : List (Str × List Str) :=
  i.Tables.map fun table => (table.Name, table.Columns.map fun col => col.Name)

/-- The struct `Pair` with the entry `A, B string` between two other tagged fields. -/
def pairsDecl : Decl :=
  structDecl ["// @table".toList] (some "Pair".toList)
    ([taggedField "ID" "string" "tabler:\"columnType=uuid&primary=true\""] ++
      pairField :: [taggedField "Note" "string" "tabler:\"columnType=text\""]) []

/-- The example file with the struct `Pair` between `User` and `Profile`. -/
def pairsFile : File :=
  { Name := some "models".toList, Decls := [userDecl] ++ pairsDecl :: [profileDecl] }

/-! ## The scan of one struct -/

theorem KeepsName_init : KeepsName Column.init := by
  have happ : ∀ (col : Column) (opt : Str) (col1 : Column),
      applyOption col opt = Except.ok col1 → col1.Name = col.Name := by
    intro col opt col1 h
    unfold applyOption at h
    split at h
    · cases h
    · split_ifs at h <;> cases h <;> rfl
  have hall : ∀ (opts : List Str) (col col1 : Column),
      applyOptions opts col = Except.ok col1 → col1.Name = col.Name := by
    intro opts
    induction opts with
    | nil => intro col col1 h; cases h; rfl
    | cons opt rest ih =>
      intro col col1 h
      unfold applyOptions at h
      split at h
      · next col2 h2 => rw [ih _ _ h, happ _ _ _ h2]
      · cases h
  intro name ftype tag col h
  exact hall _ _ _ h

theorem scanConn_done {table table1 : Table} {field : Field}
    (h : scanConn table field = Scan.done table1) :
    table1.Name = table.Name ∧ table1.Columns = table.Columns ∧
      table1.PrimaryKeys = table.PrimaryKeys := by
  unfold scanConn at h
  split_ifs at h
  · split at h
    · cases h
    · cases h; exact ⟨rfl, rfl, rfl⟩
  · cases h; exact ⟨rfl, rfl, rfl⟩

theorem scanTag_done {colInit : ColInit} {table table1 : Table} {field : Field}
    (h : scanTag colInit table field = Scan.done table1) :
    table1.Name = table.Name ∧
    ((isTagged field = false ∧ table1.Columns = table.Columns ∧
        table1.PrimaryKeys = table.PrimaryKeys) ∨
      (isTagged field = true ∧ ∃ col, FromField colInit field col ∧
        table1.Columns = table.Columns ++ [col] ∧
        table1.PrimaryKeys = table.PrimaryKeys ++ [col].filter fun c => c.IsPrimary)) := by
  unfold scanTag at h
  split at h
  · next htag =>
    cases h
    exact ⟨rfl, Or.inl ⟨by simp [isTagged, tagPayload, htag], rfl, rfl⟩⟩
  · next tag htag =>
    split at h
    · next hfind =>
      cases h
      exact ⟨rfl, Or.inl ⟨by simp [isTagged, tagPayload, htag, hfind], rfl, rfl⟩⟩
    · next payload hfind =>
      split at h
      · cases h
      · next name rest hnames =>
        split at h
        · cases h
        · next col hcol =>
          cases h
          refine ⟨rfl, Or.inr ⟨by simp [isTagged, tagPayload, htag, hfind], col,
            ⟨name, rest, payload, hnames, by simp [tagPayload, htag, hfind], hcol⟩, rfl, ?_⟩⟩
          by_cases hp : col.IsPrimary <;> simp [hp]

theorem scanField_done {colInit : ColInit} {table table1 : Table} {field : Field}
    (h : scanField colInit table field = Scan.done table1) :
    table1.Name = table.Name ∧
    ((isTagged field = false ∧ table1.Columns = table.Columns ∧
        table1.PrimaryKeys = table.PrimaryKeys) ∨
      (isTagged field = true ∧ ∃ col, FromField colInit field col ∧
        table1.Columns = table.Columns ++ [col] ∧
        table1.PrimaryKeys = table.PrimaryKeys ++ [col].filter fun c => c.IsPrimary)) := by
  unfold scanField at h
  split at h
  · next table0 hconn =>
    obtain ⟨hn, hc, hp⟩ := scanConn_done hconn
    have := scanTag_done h
    rw [hn, hc, hp] at this
    exact this
  · cases h
  · cases h

/-- A finished scan of a field list appends to the table one column for each tagged
field, in order, and appends the primary ones among them to the primary keys. -/
theorem scanFields_done {colInit : ColInit} (fields : List Field) :
    ∀ {table table1 : Table}, scanFields colInit fields table = Scan.done table1 →
      table1.Name = table.Name ∧
      ∃ cols, List.Forall₂ (FromField colInit) (taggedFields fields) cols ∧
        table1.Columns = table.Columns ++ cols ∧
        table1.PrimaryKeys = table.PrimaryKeys ++ cols.filter fun c => c.IsPrimary := by
  induction fields with
  | nil =>
    intro table table1 h
    cases h
    exact ⟨rfl, [], by simp [taggedFields], by simp, by simp⟩
  | cons field rest ih =>
    intro table table1 h
    unfold scanFields at h
    split at h
    · next table0 hfield =>
      obtain ⟨hn0, hcase⟩ := scanField_done hfield
      obtain ⟨hn1, cols, hcols, hc, hp⟩ := ih h
      refine ⟨hn1.trans hn0, ?_⟩
      rcases hcase with ⟨htag, hc0, hp0⟩ | ⟨htag, col, hcol, hc0, hp0⟩
      · exact ⟨cols, by simpa [taggedFields, htag] using hcols, by rw [hc, hc0],
          by rw [hp, hp0]⟩
      · refine ⟨col :: cols, ?_, by rw [hc, hc0]; simp, by
          rw [hp, hp0]; by_cases hq : col.IsPrimary <;> simp [List.filter_cons, hq]⟩
        simp only [taggedFields, List.filter_cons, htag, if_true]
        exact List.Forall₂.cons hcol hcols
    · cases h
    · cases h

/-- A finished scan that starts from a fresh table builds the table of the struct. -/
theorem scanFields_newTable {colInit : ColInit} {fields : List Field} {name : Str}
    {table : Table} (h : scanFields colInit fields (newTable name) = Scan.done table) :
    table.Name = name ∧ BuiltFrom colInit fields table := by
  obtain ⟨hn, cols, hcols, hc, hp⟩ := scanFields_done fields h
  simp only [newTable, List.nil_append] at hn hc hp
  exact ⟨hn, by rw [BuiltFrom, hc]; exact ⟨hcols, hp⟩⟩

/-! ## The scan of the declarations -/

theorem withTables_nil (i : InputFile) : withTables i [] = i := by
  simp [withTables]

theorem withTables_append (i : InputFile) (a b : List Table) :
    withTables (withTables i a) b = withTables i (a ++ b) := by
  simp [withTables]

theorem markedStructs_cons (decl : Decl) (rest : List Decl) :
    markedStructs (decl :: rest) = markedStructs [decl] ++ markedStructs rest := by
  simp only [markedStructs, List.filterMap_cons, List.filterMap_nil]
  cases markedFields decl <;> simp

theorem keptStructs_cons (decl : Decl) (rest : List Decl) :
    keptStructs (decl :: rest) = keptStructs [decl] ++ keptStructs rest := by
  simp only [keptStructs]
  rw [markedStructs_cons, List.filter_append]

theorem markedStructs_of_none {decl : Decl} (h : markedFields decl = none) :
    markedStructs [decl] = [] := by
  simp [markedStructs, h]

theorem markedStructs_of_some {decl : Decl} {fields : List Field}
    (h : markedFields decl = some fields) : markedStructs [decl] = [fields] := by
  simp [markedStructs, h]

theorem BuiltFrom_columns_nil {colInit : ColInit} {fields : List Field} {table : Table}
    (h : BuiltFrom colInit fields table) :
    table.Columns = [] ↔ taggedFields fields = [] := by
  have := h.1.length_eq
  constructor
  · intro hc; rw [hc] at this; exact List.length_eq_zero.mp this
  · intro hc; rw [hc] at this; exact List.length_eq_zero.mp this.symm

/-- One run of the loop body over a declaration: the receiver only gains tables, each
gained table is built from a marked struct of the declaration and has a column, and a
run that goes on to the next declaration has gained the table of every marked struct
with a tagged field. -/
theorem scanDecl_spec {colInit : ColInit} {i i1 : InputFile} {decl : Decl} {o : Outcome}
    (h : scanDecl colInit i decl = (i1, o)) :
    ∃ new structs, i1 = withTables i new ∧ structs.Sublist (markedStructs [decl]) ∧
      List.Forall₂ (BuiltFrom colInit) structs new ∧ (∀ table ∈ new, table.Columns ≠ []) ∧
      (o = Outcome.ok → structs = keptStructs [decl]) := by
  have hstop : ∀ o1 : Outcome, o1 ≠ Outcome.ok → (i, o1) = (i1, o) →
      ∃ new structs, i1 = withTables i new ∧ structs.Sublist (markedStructs [decl]) ∧
        List.Forall₂ (BuiltFrom colInit) structs new ∧ (∀ table ∈ new, table.Columns ≠ []) ∧
        (o = Outcome.ok → structs = keptStructs [decl]) := by
    intro o1 ho1 heq
    cases heq
    exact ⟨[], [], (withTables_nil i).symm, List.nil_sublist _, List.Forall₂.nil,
      by simp, fun hok => absurd hok ho1⟩
  have hskip : markedFields decl = none → (i, Outcome.ok) = (i1, o) →
      ∃ new structs, i1 = withTables i new ∧ structs.Sublist (markedStructs [decl]) ∧
        List.Forall₂ (BuiltFrom colInit) structs new ∧ (∀ table ∈ new, table.Columns ≠ []) ∧
        (o = Outcome.ok → structs = keptStructs [decl]) := by
    intro hnone heq
    cases heq
    exact ⟨[], [], (withTables_nil i).symm, List.nil_sublist _, List.Forall₂.nil,
      by simp, fun _ => by simp [keptStructs, markedStructs_of_none hnone]⟩
  unfold scanDecl at h
  split at h
  · exact hskip (by simp [markedFields, isMarked]) h
  · next tdecl =>
    split at h
    · next hdoc => exact hskip (by simp [markedFields, isMarked, hdoc]) h
    · next doc hdoc =>
      split_ifs at h with hmark hname
      · have hmark0 : isTable doc = false := by simpa using hmark
        exact hskip (by simp [markedFields, isMarked, hdoc, hmark0]) h
      · exact hstop _ (by simp) h
      · have hmark1 : isTable doc = true := by simpa using hmark
        split at h
        · next ts rest hspecs =>
          split at h
          · next fields htyp =>
            have hsome : markedFields (Decl.gen tdecl) = some fields := by
              simp [markedFields, isMarked, hdoc, hmark1, hspecs, htyp]
            split at h
            · next table hscan =>
              obtain ⟨-, hbuilt⟩ := scanFields_newTable hscan
              split_ifs at h with hlen
              · cases h
                have hne : table.Columns ≠ [] := by
                  intro hnil; rw [hnil] at hlen; simp at hlen
                have hne1 : taggedFields fields ≠ [] :=
                  fun hnil => hne ((BuiltFrom_columns_nil hbuilt).mpr hnil)
                refine ⟨[table], [fields], rfl, by rw [markedStructs_of_some hsome],
                  List.Forall₂.cons hbuilt List.Forall₂.nil, by simpa using hne, fun _ => ?_⟩
                simp [keptStructs, markedStructs_of_some hsome, hne1]
              · cases h
                have hnil : table.Columns = [] := by
                  cases hcs : table.Columns with
                  | nil => rfl
                  | cons c cs => rw [hcs] at hlen; simp at hlen
                have hnil1 := (BuiltFrom_columns_nil hbuilt).mp hnil
                exact ⟨[], [], (withTables_nil i).symm, List.nil_sublist _, List.Forall₂.nil,
                  by simp, fun _ => by simp [keptStructs, markedStructs_of_some hsome, hnil1]⟩
            · exact hstop _ (by simp) h
            · exact hstop _ (by simp) h
          · exact hstop _ (by simp) h
        · exact hstop _ (by simp) h

/-- The loop over the declarations: the receiver only gains tables, each gained table is
built from a marked struct of the file and has a column, the gained tables follow the
order of the structs, and a loop that runs to its end has gained the table of every
marked struct with a tagged field. -/
theorem scanDecls_spec {colInit : ColInit} (decls : List Decl) :
    ∀ {i i1 : InputFile} {o : Outcome}, scanDecls colInit decls i = (i1, o) →
      ∃ new structs, i1 = withTables i new ∧ structs.Sublist (markedStructs decls) ∧
        List.Forall₂ (BuiltFrom colInit) structs new ∧ (∀ table ∈ new, table.Columns ≠ []) ∧
        (o = Outcome.ok → structs = keptStructs decls) := by
  induction decls with
  | nil =>
    intro i i1 o h
    cases h
    exact ⟨[], [], (withTables_nil i).symm, List.nil_sublist _, List.Forall₂.nil, by simp,
      fun _ => rfl⟩
  | cons decl rest ih =>
    intro i i1 o h
    unfold scanDecls at h
    split at h
    · next i2 hdecl =>
      obtain ⟨new1, structs1, hi2, hsub1, hall1, hne1, hok1⟩ := scanDecl_spec hdecl
      obtain ⟨new2, structs2, hi1, hsub2, hall2, hne2, hok2⟩ := ih h
      refine ⟨new1 ++ new2, structs1 ++ structs2, ?_, ?_, ?_, ?_, ?_⟩
      · rw [hi1, hi2, withTables_append]
      · rw [markedStructs_cons]; exact List.Sublist.append hsub1 hsub2
      · exact List.rel_append hall1 hall2
      · intro table hmem
        rcases List.mem_append.mp hmem with hm | hm
        · exact hne1 table hm
        · exact hne2 table hm
      · intro hok
        rw [keptStructs_cons, hok1 rfl, hok2 hok]
    · next hnot =>
      have hdecl : scanDecl colInit i decl = (i1, o) := h
      obtain ⟨new1, structs1, hi2, hsub1, hall1, hne1, hok1⟩ := scanDecl_spec hdecl
      refine ⟨new1, structs1, hi2, ?_, hall1, hne1, ?_⟩
      · rw [markedStructs_cons]
        exact hsub1.trans (List.sublist_append_left _ _)
      · intro hok
        subst hok
        exact absurd hdecl (hnot i1)

/-! ## `Init` in terms of the loop over the declarations -/

theorem startState_tables (i : InputFile) (path : Str) (pkg : Option Str) :
    (startState i path pkg).Tables = i.Tables := by
  cases pkg <;> rfl

theorem Init_not_go {colInit : ColInit} {parseFile : Str → Option File × Option Str}
    {i : InputFile} {path : Str} (hgo : hasSuffix path goExt = false) :
    Init colInit parseFile i path = (i, Outcome.error (notGoMsg path)) := by
  simp [Init, hgo]

theorem Init_no_tree {colInit : ColInit} {parseFile : Str → Option File × Option Str}
    {i : InputFile} {path : Str} (hgo : hasSuffix path goExt = true)
    (hparse : (parseFile path).1 = none) :
    Init colInit parseFile i path =
      ({ i with BuildTarget := buildTarget path }, Outcome.panic) := by
  simp [Init, hgo, hparse, buildTarget]

theorem Init_tree {colInit : ColInit} {parseFile : Str → Option File × Option Str}
    {i : InputFile} {path : Str} {f : File} (hgo : hasSuffix path goExt = true)
    (hparse : (parseFile path).1 = some f) :
    Init colInit parseFile i path = scanDecls colInit f.Decls (startState i path f.Name) := by
  simp only [Init, hgo, hparse, if_true, startState, buildTarget]

/-- Whatever way `Init` ends, the receiver has only gained tables; each gained table is
built from a marked struct of the syntax tree and has a column. -/
theorem Init_spec {colInit : ColInit} {parseFile : Str → Option File × Option Str}
    {i i1 : InputFile} {path : Str} {o : Outcome}
    (h : Init colInit parseFile i path = (i1, o)) :
    ∃ new, i1.Tables = i.Tables ++ new ∧ (∀ table ∈ new, table.Columns ≠ []) ∧
      ∀ f, (parseFile path).1 = some f →
        ∃ structs, structs.Sublist (markedStructs f.Decls) ∧
          List.Forall₂ (BuiltFrom colInit) structs new ∧
          (o = Outcome.ok → structs = keptStructs f.Decls) := by
  cases hgo : hasSuffix path goExt
  · rw [Init_not_go hgo] at h
    cases h
    exact ⟨[], by simp, by simp, fun f _ => ⟨[], List.nil_sublist _, List.Forall₂.nil,
      fun hok => by cases hok⟩⟩
  · cases hparse : (parseFile path).1 with
    | none =>
      rw [Init_no_tree hgo hparse] at h
      cases h
      exact ⟨[], by simp, by simp, fun f hf => by cases hf⟩
    | some f =>
      rw [Init_tree hgo hparse] at h
      obtain ⟨new, structs, hi1, hsub, hall, hne, hok⟩ := scanDecls_spec f.Decls h
      refine ⟨new, ?_, hne, fun f1 hf1 => ?_⟩
      · rw [hi1]; simp [withTables, startState_tables]
      · cases hf1
        exact ⟨structs, hsub, hall, hok⟩

theorem gained_eq {i i1 : InputFile} {o : Outcome} {new : List Table}
    (h : i1.Tables = i.Tables ++ new) : gained i (i1, o) = new := by
  simp [gained, h]

theorem scanFields_append (colInit : ColInit) (a b : List Field) :
    ∀ table, scanFields colInit (a ++ b) table =
      match scanFields colInit a table with
      | Scan.done table1 => scanFields colInit b table1
      | Scan.error msg => Scan.error msg
      | Scan.panic => Scan.panic := by
  induction a with
  | nil => intro table; rfl
  | cons field rest ih =>
    intro table
    simp only [List.cons_append, scanFields]
    cases scanField colInit table field with
    | done table1 => exact ih table1
    | error msg => rfl
    | panic => rfl

theorem scanDecls_append (colInit : ColInit) (a b : List Decl) :
    ∀ i, scanDecls colInit (a ++ b) i =
      match scanDecls colInit a i with
      | (i1, Outcome.ok) => scanDecls colInit b i1
      | stopped => stopped := by
  induction a with
  | nil => intro i; rfl
  | cons decl rest ih =>
    intro i
    simp only [List.cons_append, scanDecls]
    rcases hd : scanDecl colInit i decl with ⟨i1, o⟩
    cases o with
    | ok => exact ih i1
    | error msg => rfl
    | panic => rfl

theorem Forall₂_mem_right {α β : Type} {R : α → β → Prop} {l₁ : List α} {l₂ : List β}
    (h : List.Forall₂ R l₁ l₂) {b : β} (hb : b ∈ l₂) : ∃ a ∈ l₁, R a b := by
  induction h with
  | nil => cases hb
  | cons hr _ ih =>
    rcases List.mem_cons.mp hb with rfl | hmem
    · exact ⟨_, List.mem_cons_self _ _, hr⟩
    · obtain ⟨a, ha, hab⟩ := ih hmem
      exact ⟨a, List.mem_cons_of_mem _ ha, hab⟩

theorem BuiltFrom_names {colInit : ColInit} (hname : KeepsName colInit)
    {fields : List Field} {table : Table} (h : BuiltFrom colInit fields table) :
    table.Columns.map (fun col => some col.Name) =
      (taggedFields fields).map fun field => field.Names.head? := by
  have hall := h.1
  generalize taggedFields fields = tagged at hall
  generalize table.Columns = cols at hall
  induction hall with
  | nil => rfl
  | cons hcol _ ih =>
    obtain ⟨name, rest, payload, hnames, -, hinit⟩ := hcol
    simp only [List.map_cons, ih, hnames, List.head?_cons, hname _ _ _ _ hinit]

theorem scanDecl_unmarked {colInit : ColInit} (i : InputFile) {decl : Decl}
    (h : isMarked decl = false) : scanDecl colInit i decl = (i, Outcome.ok) := by
  cases decl with
  | other => rfl
  | gen tdecl =>
    obtain ⟨doc, specs⟩ := tdecl
    cases doc with
    | none => rfl
    | some doc =>
      have hmark : isTable doc = false := by simpa [isMarked] using h
      simp [scanDecl, hmark]

theorem scanDecls_filter_marked (colInit : ColInit) (decls : List Decl) :
    ∀ i, scanDecls colInit (decls.filter isMarked) i = scanDecls colInit decls i := by
  induction decls with
  | nil => intro i; rfl
  | cons decl rest ih =>
    intro i
    cases hm : isMarked decl
    · simp only [List.filter_cons, hm, scanDecls, scanDecl_unmarked i hm]
      exact ih i
    · simp only [List.filter_cons, hm, if_true, scanDecls]
      rcases scanDecl colInit i decl with ⟨i1, o⟩
      cases o with
      | ok => exact ih i1
      | error msg => rfl
      | panic => rfl

theorem Forall₂_mem_left {α β : Type} {R : α → β → Prop} {l₁ : List α} {l₂ : List β}
    (h : List.Forall₂ R l₁ l₂) {a : α} (ha : a ∈ l₁) : ∃ b ∈ l₂, R a b := by
  induction h with
  | nil => cases ha
  | cons hr _ ih =>
    rcases List.mem_cons.mp ha with rfl | hmem
    · exact ⟨_, List.mem_cons_self _ _, hr⟩
    · obtain ⟨b, hb, hab⟩ := ih hmem
      exact ⟨b, List.mem_cons_of_mem _ hb, hab⟩

/-- A run of the loop body that stops the loop leaves the receiver as it was. -/
theorem scanDecl_stop {colInit : ColInit} {i i1 : InputFile} {decl : Decl} {o : Outcome}
    (h : scanDecl colInit i decl = (i1, o)) (ho : o ≠ Outcome.ok) : i1 = i := by
  unfold scanDecl at h
  repeat' split at h
  all_goals first
    | (cases h; rfl)
    | (cases h; exact absurd rfl ho)

/-- A loop over the declarations that stops has run through the declarations before
the stopping one and has stopped there without a further change of the receiver. -/
theorem scanDecls_stop {colInit : ColInit} (decls : List Decl) :
    ∀ {i i1 : InputFile} {o : Outcome}, scanDecls colInit decls i = (i1, o) →
      o ≠ Outcome.ok →
      ∃ pre decl post, decls = pre ++ decl :: post ∧
        scanDecls colInit pre i = (i1, Outcome.ok) ∧ scanDecl colInit i1 decl = (i1, o) := by
  induction decls with
  | nil =>
    intro i i1 o h ho
    cases h
    exact absurd rfl ho
  | cons decl rest ih =>
    intro i i1 o h ho
    unfold scanDecls at h
    split at h
    · next i2 hdecl =>
      obtain ⟨pre, d, post, hsplit, hpre, hd⟩ := ih h ho
      refine ⟨decl :: pre, d, post, by rw [hsplit]; rfl, ?_, hd⟩
      simp only [scanDecls, hdecl]
      exact hpre
    · have hi : i1 = i := scanDecl_stop h ho
      subst hi
      exact ⟨[], decl, rest, rfl, rfl, h⟩

theorem scanDecl_structDecl (colInit : ColInit) (i : InputFile) (doc : List Str)
    (name : Option Str) (fields : List Field) (more : List Spec)
    (hmark : isTable doc = true) :
    scanDecl colInit i (structDecl doc name fields more) =
      if tableName (Spec.type { Name := name, Typ := TypeExpr.other } :: more) = [] then
        (i, Outcome.error noNameMsg)
      else
        match scanFields colInit fields
          (newTable (tableName (Spec.type { Name := name, Typ := TypeExpr.other } :: more))) with
        | Scan.done table =>
          if table.Columns.length > 0 then
            ({ i with Tables := i.Tables ++ [table] }, Outcome.ok)
          else (i, Outcome.ok)
        | Scan.error msg => (i, Outcome.error msg)
        | Scan.panic => (i, Outcome.panic) := by
  simp only [scanDecl, structDecl, hmark, tableName]
  rfl

theorem scanFields_congr (colInit : ColInit) (before after : List Field)
    (field field1 : Field)
    (h : ∀ table, scanField colInit table field = scanField colInit table field1) :
    ∀ table, scanFields colInit (before ++ field :: after) table =
      scanFields colInit (before ++ field1 :: after) table := by
  intro table
  simp only [scanFields_append, scanFields, h]

theorem scanDecl_structDecl_congr (colInit : ColInit) (i : InputFile) (doc : List Str)
    (name : Option Str) (fields fields1 : List Field) (more : List Spec)
    (h : ∀ table, scanFields colInit fields table = scanFields colInit fields1 table) :
    scanDecl colInit i (structDecl doc name fields more) =
      scanDecl colInit i (structDecl doc name fields1 more) := by
  simp only [scanDecl, structDecl, tableName, h]

theorem scanDecls_congr (colInit : ColInit) (pre post : List Decl) (decl decl1 : Decl)
    (h : ∀ i, scanDecl colInit i decl = scanDecl colInit i decl1) :
    ∀ i, scanDecls colInit (pre ++ decl :: post) i =
      scanDecls colInit (pre ++ decl1 :: post) i := by
  intro i
  simp only [scanDecls_append, scanDecls, h]

/-- The scan of a field with names whose payload the tag interpreter rejects. -/
theorem scanField_rejected {colInit : ColInit} (table : Table) {field : Field}
    {n payload err : Str} {ns : List Str} (hnames : field.Names = n :: ns)
    (hpayload : tagPayload field = some payload)
    (hrej : colInit n (fieldType field) payload = Except.error err) :
    scanField colInit table field = Scan.error (tagErrorMsg payload err) := by
  obtain ⟨tag, htag, hfind⟩ : ∃ tag, field.Tag = some tag ∧ tagPatternFind tag = some payload := by
    unfold tagPayload at hpayload
    cases htag : field.Tag with
    | none => rw [htag] at hpayload; cases hpayload
    | some tag => rw [htag] at hpayload; exact ⟨tag, rfl, hpayload⟩
  unfold scanField scanConn
  split_ifs <;> simp [hnames, scanTag, htag, hfind, hrej]

/-! ## The tag pattern -/

theorem hasPrefix_iff (s pre : Str) : hasPrefix s pre = true ↔ ∃ t, s = pre ++ t := by
  unfold hasPrefix
  rw [List.isPrefixOf_iff_prefix]
  constructor
  · rintro ⟨t, ht⟩; exact ⟨t, ht.symm⟩
  · rintro ⟨t, ht⟩; exact ⟨t, ht.symm⟩

/-- A match of the pattern spans two double quotes. -/
theorem tagMatchHere_count {s payload : Str} (h : tagMatchHere s = some payload) :
    2 ≤ s.count '"' := by
  unfold tagMatchHere at h
  split_ifs at h with hpre
  obtain ⟨t, rfl⟩ := (hasPrefix_iff _ _).mp hpre
  rw [List.drop_left] at h
  split at h
  · next rest hdrop =>
    have ht : t = t.takeWhile tagClass ++ '"' :: rest := by
      rw [← hdrop, List.takeWhile_append_dropWhile]
    rw [ht, List.count_append, List.count_append, List.count_cons_self]
    have : List.count '"' tagOpen = 1 := by decide
    omega
  · cases h

theorem tagPatternFind_few_quotes (s : Str) (h : s.count '"' < 2) :
    tagPatternFind s = none := by
  induction s with
  | nil => rfl
  | cons c s ih =>
    unfold tagPatternFind
    cases hm : tagMatchHere (c :: s) with
    | some payload => have := tagMatchHere_count hm; omega
    | none =>
      have hle : s.count '"' ≤ (c :: s).count '"' := by
        rw [List.count_cons]; omega
      exact ih (by omega)

/-- Right after the opening literal, a payload with a character outside the class
stops the starred class at a character that is not the closing quote. -/
theorem dropWhile_class_bad (payload tail : Str) (hbad : ∃ c ∈ payload, tagClass c = false)
    (hquote : '"' ∉ payload) :
    ∃ c rest, (payload ++ tail).dropWhile tagClass = c :: rest ∧ c ≠ '"' := by
  induction payload with
  | nil => obtain ⟨c, hc, -⟩ := hbad; cases hc
  | cons a p ih =>
    cases ha : tagClass a
    · refine ⟨a, p ++ tail, by simp [List.dropWhile_cons, ha], ?_⟩
      rintro rfl
      exact hquote (List.mem_cons_self _ _)
    · obtain ⟨c, hc, hcl⟩ := hbad
      have hcp : c ∈ p := by
        rcases List.mem_cons.mp hc with rfl | hmem
        · rw [ha] at hcl; cases hcl
        · exact hmem
      obtain ⟨c1, rest, hdrop, hne⟩ := ih ⟨c, hcp, hcl⟩
        (fun hq => hquote (List.mem_cons_of_mem _ hq))
      exact ⟨c1, rest, by simp [List.dropWhile_cons, ha, hdrop], hne⟩

/-- The pattern does not match a tag literal `tabler:"payload"` whose payload has a
character outside the class. -/
theorem tagPatternFind_rawTag {payload : Str} (hbad : ∃ c ∈ payload, tagClass c = false)
    (hquote : '"' ∉ payload) : tagPatternFind (rawTag payload) = none := by
  have hhere : tagMatchHere (tagOpen ++ payload ++ ['"', '\x60']) = none := by
    unfold tagMatchHere
    have hpre : hasPrefix (tagOpen ++ payload ++ ['"', '\x60']) tagOpen = true := by
      rw [hasPrefix_iff]; exact ⟨payload ++ ['"', '\x60'], by simp⟩
    rw [if_pos hpre, List.append_assoc, List.drop_left]
    obtain ⟨c, rest, hdrop, hne⟩ := dropWhile_class_bad payload ['"', '\x60'] hbad hquote
    rw [hdrop]
    split
    · next heq => cases heq; exact absurd rfl hne
    · rfl
  have htail : tagPatternFind (payload ++ ['"', '\x60']) = none := by
    apply tagPatternFind_few_quotes
    rw [List.count_append, List.count_eq_zero_of_not_mem hquote]
    decide
  have hno : ∀ (c : Char) (t : Str), c ≠ 't' → tagMatchHere (c :: t) = none := by
    intro c t hc
    have : hasPrefix (c :: t) tagOpen = false := by
      simp [hasPrefix, tagOpen, List.isPrefixOf, hc.symm]
    simp [tagMatchHere, this]
  have hopen : rawTag payload =
      '\x60' :: 't' :: 'a' :: 'b' :: 'l' :: 'e' :: 'r' :: ':' :: '"' ::
        (payload ++ ['"', '\x60']) := by
    simp [rawTag, tagOpen]
  have hhere1 : tagMatchHere ('t' :: 'a' :: 'b' :: 'l' :: 'e' :: 'r' :: ':' :: '"' ::
      (payload ++ ['"', '\x60'])) = none := by
    have : tagOpen ++ payload ++ ['"', '\x60'] =
        't' :: 'a' :: 'b' :: 'l' :: 'e' :: 'r' :: ':' :: '"' :: (payload ++ ['"', '\x60']) := by
      simp [tagOpen]
    rw [← this]; exact hhere
  rw [hopen]
  simp only [tagPatternFind, hhere1, hno _ _ (by decide : ('\x60' : Char) ≠ 't'),
    hno _ _ (by decide : ('a' : Char) ≠ 't'), hno _ _ (by decide : ('b' : Char) ≠ 't'),
    hno _ _ (by decide : ('l' : Char) ≠ 't'), hno _ _ (by decide : ('e' : Char) ≠ 't'),
    hno _ _ (by decide : ('r' : Char) ≠ 't'), hno _ _ (by decide : (':' : Char) ≠ 't'),
    hno _ _ (by decide : ('"' : Char) ≠ 't'), htail]

/-- A field whose tag the pattern does not match is scanned like the same field
without a tag. -/
theorem scanField_unmatched (colInit : ColInit) (table : Table) (field : Field)
    (h : isTagged field = false) :
    scanField colInit table field = scanField colInit table { field with Tag := none } := by
  have hconn : scanConn table { field with Tag := none } = scanConn table field := rfl
  unfold scanField
  rw [hconn]
  cases scanConn table field with
  | error msg => rfl
  | panic => rfl
  | done table1 =>
    cases htag : field.Tag with
    | none => simp [scanTag, htag]
    | some tag =>
      have hfind : tagPatternFind tag = none := by
        simpa [isTagged, tagPayload, htag] using h
      simp [scanTag, htag, hfind]

/-! ## The build target -/

theorem headD_append_sep (d y y1 : Str) :
    (d ++ '/' :: y).headD '/' = (d ++ '/' :: y1).headD '/' := by
  cases d <;> rfl

theorem isEmpty_append_sep (d y : Str) : (d ++ '/' :: y).isEmpty = false := by
  cases d <;> rfl

theorem cleanLoop_in (rooted : Bool) (c : Char) (rest out : Str) (dotdot : Nat) :
    cleanLoop rooted (c :: rest) true out dotdot =
      if isSep c then cleanLoop rooted rest false out dotdot
      else cleanLoop rooted rest true (out ++ [c]) dotdot := by
  rw [cleanLoop]

theorem cleanLoop_out (rooted : Bool) (c d : Char) (rest2 out : Str) (dotdot : Nat) :
    cleanLoop rooted (c :: d :: rest2) false out dotdot =
      if isSep c then cleanLoop rooted (d :: rest2) false out dotdot
      else if c = '.' && isSep d then cleanLoop rooted (d :: rest2) false out dotdot
      else if c = '.' && d = '.' && (rest2.isEmpty || isSep (rest2.headD '/')) then
        if out.length > dotdot then
          cleanLoop rooted rest2 false
            (out.take (backtrackLoop out dotdot (out.length - 1))) dotdot
        else if !rooted then
          cleanLoop rooted rest2 false
            ((if out.length > 0 then out ++ ['/'] else out) ++ ['.', '.'])
            ((if out.length > 0 then out ++ ['/'] else out) ++ ['.', '.']).length
        else cleanLoop rooted rest2 false out dotdot
      else
        cleanLoop rooted (d :: rest2) true
          ((if rooted && out.length != 1 || !rooted && out.length != 0
            then out ++ ['/'] else out) ++ [c]) dotdot := by
  rw [cleanLoop]
  rfl

theorem cleanLoop_sep (rooted : Bool) (x : Str) (inElem : Bool) (out : Str) (dotdot : Nat) :
    cleanLoop rooted ('/' :: x) inElem out dotdot = cleanLoop rooted x false out dotdot := by
  cases inElem
  · cases x <;> simp [cleanLoop, isSep]
  · simp [cleanLoop, isSep]

theorem cleanLoop_double_sep (rooted : Bool) :
    ∀ (n : Nat) (d0 : Str), d0.length = n → ∀ (x : Str) (inElem : Bool) (out : Str) (dotdot : Nat),
      cleanLoop rooted (d0 ++ '/' :: '/' :: x) inElem out dotdot =
        cleanLoop rooted (d0 ++ '/' :: x) inElem out dotdot := by
  intro n
  induction n using Nat.strong_induction_on with
  | _ n ih =>
    intro d0 hlen x inElem out dotdot
    cases d0 with
    | nil =>
      simp only [List.nil_append, cleanLoop_sep]
    | cons c d1 =>
      have ih1 := ih d1.length (by simp at hlen; omega) d1 rfl x
      cases inElem with
      | true =>
        simp only [List.cons_append, cleanLoop_in, ih1]
      | false =>
        cases d1 with
        | nil =>
          have hs : isSep '/' = true := by decide
          have h1 : decide (('/' : Char) = '.') = false := by decide
          simp only [List.cons_append, List.nil_append]
          rw [cleanLoop_out rooted c '/' ('/' :: x), cleanLoop_out rooted c '/' x]
          simp [cleanLoop_sep, hs, h1]
        | cons d d2 =>
          have ih2 := ih d2.length (by simp at hlen; omega) d2 rfl x
          simp only [List.cons_append] at ih1 ⊢
          simp only [cleanLoop_out, ih1, ih2, isEmpty_append_sep,
            headD_append_sep d2 ('/' :: x) x]



theorem filepathClean_double_sep (d0 x : Str) :
    filepathClean (d0 ++ '/' :: '/' :: x) = filepathClean (d0 ++ '/' :: x) := by
  cases d0 with
  | nil =>
    have h := cleanLoop_double_sep (isSep '/') 0 [] rfl x
    simp only [List.nil_append] at h
    simp only [filepathClean, List.nil_append, h]
  | cons c d1 =>
    simp only [filepathClean, List.cons_append]
    rw [← List.cons_append, ← List.cons_append, cleanLoop_double_sep _ _ (c :: d1) rfl x]

theorem filepathSplit_append (p : Str) : (filepathSplit p).1 ++ (filepathSplit p).2 = p := by
  simp only [filepathSplit]
  rw [← List.reverse_append, List.takeWhile_append_dropWhile, List.reverse_reverse]

theorem dropWhile_head {q : Char → Bool} :
    ∀ (l : Str) {a : Char} {t : Str}, l.dropWhile q = a :: t → q a = false := by
  intro l
  induction l with
  | nil => intro a t h; cases h
  | cons b l ih =>
    intro a t h
    rw [List.dropWhile_cons] at h
    split_ifs at h with hb
    · exact ih h
    · cases h; simpa using hb

theorem filepathSplit_dir (p : Str) :
    (filepathSplit p).1 = [] ∨ ∃ d0, (filepathSplit p).1 = d0 ++ ['/'] := by
  simp only [filepathSplit]
  cases h : p.reverse.dropWhile fun c => !isSep c with
  | nil => left; rfl
  | cons a t =>
    right
    have ha := dropWhile_head _ h
    have : a = '/' := by simpa [isSep] using ha
    exact ⟨t.reverse, by rw [this]; simp⟩

theorem filepathJoin_split (root ext : Str) (hext : ext ≠ []) :
    filepathJoin (filepathSplit root).1 ((filepathSplit root).2 ++ ext) =
      filepathClean (root ++ ext) := by
  have happ := filepathSplit_append root
  have hdir := filepathSplit_dir root
  generalize filepathSplit root = sp at happ hdir
  obtain ⟨dir, file⟩ := sp
  simp only at happ hdir ⊢
  subst happ
  unfold filepathJoin
  rcases hdir with rfl | ⟨d0, rfl⟩
  · have hne : file ++ ext ≠ [] := by simp [hext]
    simp [hne]
  · have hne : d0 ++ ['/'] ≠ [] := by simp
    rw [if_pos hne]
    simp only [List.append_assoc, List.singleton_append]
    exact filepathClean_double_sep d0 _

/-- The build target is the cleaned form of the path with `.go` replaced by
`_tabler.go`. -/
theorem buildTarget_eq (path : Str) :
    buildTarget path = filepathClean (trimSuffix path goExt ++ tablerExt) :=
  filepathJoin_split _ _ (by decide)

theorem cleanLoop_copy (rooted : Bool) :
    ∀ (s out : Str) (dotdot : Nat), (∀ c ∈ s, c ≠ '/') →
      cleanLoop rooted s true out dotdot = out ++ s := by
  intro s
  induction s with
  | nil => intro out dotdot _; simp [cleanLoop]
  | cons c s ih =>
    intro out dotdot h
    have hc : isSep c = false := by simpa [isSep] using h c (List.mem_cons_self _ _)
    rw [cleanLoop_in, hc, ih _ _ (fun a ha => h a (List.mem_cons_of_mem _ ha))]
    simp

/-- A path of at least three characters without a separator is clean already. -/
theorem filepathClean_no_sep (s : Str) (hlen : 3 ≤ s.length) (h : ∀ a ∈ s, a ≠ '/') :
    filepathClean s = s := by
  obtain ⟨c, d, e, t, rfl⟩ : ∃ c d e t, s = c :: d :: e :: t := by
    match s, hlen with
    | c :: d :: e :: t, _ => exact ⟨c, d, e, t, rfl⟩
  have hc : isSep c = false := by simpa [isSep] using h c (by simp)
  have hd : isSep d = false := by simpa [isSep] using h d (by simp)
  have he : isSep e = false := by simpa [isSep] using h e (by simp)
  simp only [filepathClean, hc]
  rw [cleanLoop_out]
  simp only [hc, hd, he, List.isEmpty_cons, List.headD_cons, Bool.and_false, Bool.or_false,
    Bool.false_eq_true, if_false]
  rw [cleanLoop_copy _ _ _ _ (fun a ha => h a (List.mem_cons_of_mem _ ha))]
  simp

theorem Init_buildTarget {colInit : ColInit} {parseFile : Str → Option File × Option Str}
    {i : InputFile} {path : Str} (hgo : hasSuffix path goExt = true) :
    (Init colInit parseFile i path).1.BuildTarget = buildTarget path := by
  cases hparse : (parseFile path).1 with
  | none => rw [Init_no_tree hgo hparse]
  | some f =>
    rw [Init_tree hgo hparse]
    rcases hres : scanDecls colInit f.Decls (startState i path f.Name) with ⟨i1, o⟩
    obtain ⟨new, -, hi1, -⟩ := scanDecls_spec f.Decls hres
    rw [hi1]
    cases f.Name <;> rfl

/-! ## The claims -/

/-- C3: when `Init` returns nil, the tables it has added are those of the marked structs
that have a tagged field, in order, and in each of them the columns stand one to one and
in declaration order for the fields whose tag matches the tag pattern: the i-th column
is what `Column.init` made of the i-th tagged field and carries that field's first name
(for a tag interpreter that stores the name it is given). Fields without a matching tag
have no column. -/
theorem init_columns_follow_tagged_fields (colInit : ColInit)
    (parseFile : Str → Option File × Option Str) (i : InputFile) (path : Str) (f : File)
    (hname : KeepsName colInit) (hparse : (parseFile path).1 = some f)
    (hok : (Init colInit parseFile i path).2 = Outcome.ok) :
    ∃ new, (Init colInit parseFile i path).1.Tables = i.Tables ++ new ∧
      List.Forall₂
        (fun fields table =>
          List.Forall₂ (FromField colInit) (taggedFields fields) table.Columns ∧
          table.Columns.map (fun col => some col.Name) =
            (taggedFields fields).map fun field => field.Names.head?)
        (keptStructs f.Decls) new := by
  rcases hres : Init colInit parseFile i path with ⟨i1, o⟩
  rw [hres] at hok
  obtain ⟨new, htables, -, hrest⟩ := Init_spec hres
  obtain ⟨structs, -, hall, hkept⟩ := hrest f hparse
  rw [hkept hok] at hall
  exact ⟨new, htables, hall.imp fun _ _ hb => ⟨hb.1, BuiltFrom_names hname hb⟩⟩

theorem init_columns_follow_tagged_fields_witness :
    KeepsName Column.init ∧
    (Init Column.init (parseAs exampleFile) emptyInput examplePath).2 = Outcome.ok ∧
    ∃ new, (Init Column.init (parseAs exampleFile) emptyInput examplePath).1.Tables =
        emptyInput.Tables ++ new ∧
      List.Forall₂
        (fun fields table =>
          List.Forall₂ (FromField Column.init) (taggedFields fields) table.Columns ∧
          table.Columns.map (fun col => some col.Name) =
            (taggedFields fields).map fun field => field.Names.head?)
        (keptStructs exampleFile.Decls) new :=
  ⟨KeepsName_init, by decide,
    init_columns_follow_tagged_fields Column.init (parseAs exampleFile) emptyInput examplePath
      exampleFile KeepsName_init rfl (by decide)⟩

/-- C4: in every table that `Init` adds, `PrimaryKeys` is `Columns` filtered by
`IsPrimary`, so it lists the primary columns in the order they have in `Columns`. -/
theorem init_primaryKeys_eq_filter (colInit : ColInit)
    (parseFile : Str → Option File × Option Str) (i : InputFile) (path : Str)
    (table : Table) (h : table ∈ gained i (Init colInit parseFile i path)) :
    table.PrimaryKeys = table.Columns.filter fun col => col.IsPrimary := by
  rcases hres : Init colInit parseFile i path with ⟨i1, o⟩
  obtain ⟨new, htables, -, hrest⟩ := Init_spec hres
  rw [hres, gained_eq htables] at h
  cases hgo : hasSuffix path goExt
  · rw [Init_not_go hgo] at hres
    cases hres
    have hnil : new = [] := by simpa using htables
    rw [hnil] at h
    cases h
  · cases hparse : (parseFile path).1 with
    | none =>
      rw [Init_no_tree hgo hparse] at hres
      cases hres
      have hnil : new = [] := by simpa using htables
      rw [hnil] at h
      cases h
    | some f =>
      obtain ⟨structs, -, hall, -⟩ := hrest f hparse
      obtain ⟨fields, -, hb⟩ := Forall₂_mem_right hall h
      exact hb.2

theorem init_primaryKeys_eq_filter_witness :
    profileTable ∈ gained emptyInput (Init Column.init (parseAs exampleFile) emptyInput examplePath) ∧
      profileTable.PrimaryKeys = profileTable.Columns.filter fun col => col.IsPrimary :=
  ⟨by decide,
    init_primaryKeys_eq_filter Column.init (parseAs exampleFile) emptyInput examplePath
      profileTable (by decide)⟩

/-- C5: after `Init` has run on a receiver without tables, every table of the receiver
has at least one column, whatever way `Init` ended; a marked struct without a tagged
field leaves no table. -/
theorem init_tables_have_columns (colInit : ColInit)
    (parseFile : Str → Option File × Option Str) (i : InputFile) (path : Str)
    (hempty : i.Tables = []) (table : Table)
    (h : table ∈ (Init colInit parseFile i path).1.Tables) :
    0 < table.Columns.length := by
  rcases hres : Init colInit parseFile i path with ⟨i1, o⟩
  obtain ⟨new, htables, hne, -⟩ := Init_spec hres
  rw [hres] at h
  simp only [htables, hempty, List.nil_append] at h
  exact List.length_pos.mpr (hne table h)

theorem init_tables_have_columns_witness :
    emptyInput.Tables = [] ∧
    profileTable ∈ (Init Column.init (parseAs exampleFile) emptyInput examplePath).1.Tables ∧
    0 < profileTable.Columns.length :=
  ⟨rfl, by decide,
    init_tables_have_columns Column.init (parseAs exampleFile) emptyInput examplePath rfl
      profileTable (by decide)⟩

/-- C6: declarations that are not marked (no doc comment, or no comment of it containing
`@table`) contribute nothing: `Init` ends the same way with the same receiver when they
are removed from the syntax tree. A `.go` file that parses to a tree without a marked
declaration makes `Init` return nil with `Tables` as it was. -/
theorem init_ignores_unmarked (colInit : ColInit)
    (parseFile : Str → Option File × Option Str) (i : InputFile) (path : Str) (f : File)
    (hgo : hasSuffix path goExt = true) (hparse : (parseFile path).1 = some f) :
    Init colInit parseFile i path =
        Init colInit (parseAs { f with Decls := f.Decls.filter isMarked }) i path ∧
      ((∀ decl ∈ f.Decls, isMarked decl = false) →
        (Init colInit parseFile i path).2 = Outcome.ok ∧
        (Init colInit parseFile i path).1.Tables = i.Tables) := by
  have hfilter : Init colInit parseFile i path =
      Init colInit (parseAs { f with Decls := f.Decls.filter isMarked }) i path := by
    rw [Init_tree hgo hparse, Init_tree hgo (show (parseAs _ path).1 = some _ from rfl)]
    exact (scanDecls_filter_marked colInit f.Decls _).symm
  refine ⟨hfilter, fun hnone => ?_⟩
  have hnil : f.Decls.filter isMarked = [] := by
    rw [List.filter_eq_nil_iff]
    intro decl hmem
    simp [hnone decl hmem]
  rw [hfilter, Init_tree hgo (show (parseAs _ path).1 = some _ from rfl)]
  simp only [hnil, scanDecls, startState_tables, and_self]

theorem init_ignores_unmarked_witness :
    hasSuffix examplePath goExt = true ∧ (parseAs unmarkedFile examplePath).1 = some unmarkedFile ∧
    (Init Column.init (parseAs unmarkedFile) emptyInput examplePath =
        Init Column.init
          (parseAs { unmarkedFile with Decls := unmarkedFile.Decls.filter isMarked })
          emptyInput examplePath ∧
      ((∀ decl ∈ unmarkedFile.Decls, isMarked decl = false) →
        (Init Column.init (parseAs unmarkedFile) emptyInput examplePath).2 = Outcome.ok ∧
        (Init Column.init (parseAs unmarkedFile) emptyInput examplePath).1.Tables =
          emptyInput.Tables)) :=
  ⟨by decide, rfl,
    init_ignores_unmarked Column.init (parseAs unmarkedFile) emptyInput examplePath
      unmarkedFile (by decide) rfl⟩

/-- C7: on a path that does not end in `.go`, `Init` returns an error and leaves the
receiver as it was: `BuildTarget`, `PackageName` and `Tables` keep their values and the
result does not depend on the parser. -/
theorem init_rejects_other_suffix (colInit : ColInit)
    (parseFile : Str → Option File × Option Str) (i : InputFile) (path : Str)
    (hgo : hasSuffix path goExt = false) :
    Init colInit parseFile i path = (i, Outcome.error (notGoMsg path)) :=
  Init_not_go hgo

theorem init_rejects_other_suffix_witness :
    hasSuffix textPath goExt = false ∧
    Init Column.init (parseAs exampleFile) emptyInput textPath =
      (emptyInput, Outcome.error (notGoMsg textPath)) :=
  ⟨by decide,
    init_rejects_other_suffix Column.init (parseAs exampleFile) emptyInput textPath
      (by decide)⟩

/-- C8: when the scan reaches a tagged field whose payload `Column.init` rejects (all the
declarations and fields before it are scanned without a stop), `Init` returns the tag
error at once: the receiver is what the scan of the earlier declarations alone leaves,
so the table holding the field is not added, and neither the later fields nor the later
declarations have any effect on the result. -/
theorem init_stops_at_rejected_tag (colInit : ColInit)
    (parseFile : Str → Option File × Option Str) (i : InputFile) (path : Str)
    (pkg : Option Str) (pre post : List Decl) (doc : List Str) (name : Option Str)
    (more : List Spec) (before after : List Field) (field : Field)
    (n payload err : Str) (ns : List Str)
    (hgo : hasSuffix path goExt = true)
    (hparse : (parseFile path).1 = some
      { Name := pkg
        Decls := pre ++ structDecl doc name (before ++ field :: after) more :: post })
    (hmark : isTable doc = true)
    (hreach : (Init colInit
      (parseAs { Name := pkg, Decls := pre ++ [structDecl doc name before more] })
      i path).2 = Outcome.ok)
    (hnames : field.Names = n :: ns) (hpayload : tagPayload field = some payload)
    (hrej : colInit n (fieldType field) payload = Except.error err) :
    (Init colInit (parseAs { Name := pkg, Decls := pre }) i path).2 = Outcome.ok ∧
    Init colInit parseFile i path =
      ((Init colInit (parseAs { Name := pkg, Decls := pre }) i path).1,
        Outcome.error (tagErrorMsg payload err)) := by
  rw [Init_tree hgo (show (parseAs _ path).1 = some _ from rfl)] at hreach
  rw [Init_tree hgo hparse, Init_tree hgo (show (parseAs _ path).1 = some _ from rfl)]
  simp only [scanDecls_append] at hreach ⊢
  rcases hpre : scanDecls colInit pre (startState i path pkg) with ⟨ipre, opre⟩
  rw [hpre] at hreach
  cases opre with
  | error msg => cases hreach
  | panic => cases hreach
  | ok =>
    refine ⟨rfl, ?_⟩
    simp only [scanDecls, scanDecl_structDecl colInit ipre doc name _ more hmark]
      at hreach ⊢
    by_cases hnone : tableName (Spec.type { Name := name, Typ := TypeExpr.other } :: more) = []
    · rw [if_pos hnone] at hreach
      cases hreach
    · rw [if_neg hnone] at hreach
      rw [if_neg hnone, scanFields_append]
      cases hbefore : scanFields colInit before
          (newTable (tableName (Spec.type { Name := name, Typ := TypeExpr.other } :: more))) with
      | error msg => rw [hbefore] at hreach; cases hreach
      | panic => rw [hbefore] at hreach; cases hreach
      | done table0 =>
        simp only [scanFields, scanField_rejected table0 hnames hpayload hrej]

theorem init_stops_at_rejected_tag_witness :
    (Init Column.init
      (parseAs
        { Name := some "models".toList
          Decls := [profileDecl] ++ [structDecl ["// @table".toList] (some "User".toList)
            [taggedField "ID" "string" "tabler:\"columnType=uuid&primary=true\""] []] })
      emptyInput examplePath).2 = Outcome.ok ∧
    Column.init "Email".toList
      (fieldType (taggedField "Email" "string" "tabler:\"primary=maybe\""))
      "primary=maybe".toList = Except.error "primary=maybe".toList ∧
    (Init Column.init (parseAs { Name := some "models".toList, Decls := [profileDecl] })
      emptyInput examplePath).2 = Outcome.ok ∧
    Init Column.init (parseAs rejectedFile) emptyInput examplePath =
      ((Init Column.init (parseAs { Name := some "models".toList, Decls := [profileDecl] })
          emptyInput examplePath).1,
        Outcome.error (tagErrorMsg "primary=maybe".toList "primary=maybe".toList)) :=
  ⟨by decide, rfl,
    init_stops_at_rejected_tag Column.init (parseAs rejectedFile) emptyInput examplePath
      (some "models".toList) [profileDecl] [userDecl] ["// @table".toList]
      (some "User".toList) []
      [taggedField "ID" "string" "tabler:\"columnType=uuid&primary=true\""]
      [taggedField "Created" "string" "tabler:\"columnType=timestamp\""]
      (taggedField "Email" "string" "tabler:\"primary=maybe\"")
      "Email".toList "primary=maybe".toList "primary=maybe".toList []
      (by decide) rfl (by decide) (by decide) rfl (by decide) rfl⟩

/-- C9, the claim as stated fails: on the example file followed by a marked variable
declaration `Init`, started without tables, returns an error and leaves the tables of
`User` and `Profile` in the receiver. -/
theorem init_error_leaves_tables :
    emptyInput.Tables = [] ∧
    (Init Column.init (parseAs partialFile) emptyInput examplePath).2 =
      Outcome.error noNameMsg ∧
    (Init Column.init (parseAs partialFile) emptyInput examplePath).1.Tables ≠ [] := by
  decide

/-- C9, amended: when `Init` returns an error on a `.go` path that parses to a tree, the
declarations split into those before the failing one, the failing one and the rest, and
the receiver is exactly what `Init` leaves when it returns nil on the tree cut down to
the declarations before the failing one: their tables stay, the failing declaration and
the later ones add nothing. -/
theorem init_error_keeps_earlier_tables (colInit : ColInit)
    (parseFile : Str → Option File × Option Str) (i i1 : InputFile) (path : Str)
    (f : File) (msg : Str)
    (hgo : hasSuffix path goExt = true) (hparse : (parseFile path).1 = some f)
    (herr : Init colInit parseFile i path = (i1, Outcome.error msg)) :
    ∃ pre decl post, f.Decls = pre ++ decl :: post ∧
      Init colInit (parseAs { f with Decls := pre }) i path = (i1, Outcome.ok) ∧
      Init colInit (parseAs { f with Decls := pre ++ [decl] }) i path =
        (i1, Outcome.error msg) := by
  rw [Init_tree hgo hparse] at herr
  obtain ⟨pre, decl, post, hsplit, hpre, hdecl⟩ := scanDecls_stop f.Decls herr (by simp)
  refine ⟨pre, decl, post, hsplit, ?_, ?_⟩
  · rw [Init_tree hgo (show (parseAs _ path).1 = some _ from rfl)]
    exact hpre
  · rw [Init_tree hgo (show (parseAs _ path).1 = some _ from rfl)]
    show scanDecls colInit (pre ++ [decl]) (startState i path f.Name) = _
    rw [scanDecls_append]
    simp only [hpre, scanDecls, hdecl]

theorem init_error_keeps_earlier_tables_witness :
    hasSuffix examplePath goExt = true ∧
    Init Column.init (parseAs partialFile) emptyInput examplePath =
      ((Init Column.init (parseAs exampleFile) emptyInput examplePath).1,
        Outcome.error noNameMsg) ∧
    ∃ pre decl post, partialFile.Decls = pre ++ decl :: post ∧
      Init Column.init (parseAs { partialFile with Decls := pre }) emptyInput examplePath =
        ((Init Column.init (parseAs exampleFile) emptyInput examplePath).1, Outcome.ok) ∧
      Init Column.init (parseAs { partialFile with Decls := pre ++ [decl] }) emptyInput
          examplePath =
        ((Init Column.init (parseAs exampleFile) emptyInput examplePath).1,
          Outcome.error noNameMsg) :=
  ⟨by decide, by decide,
    init_error_keeps_earlier_tables Column.init (parseAs partialFile) emptyInput _
      examplePath partialFile noNameMsg (by decide) rfl (by decide)⟩

/-- C10, the claim as stated fails: the payload `columnType=decimal(10,2)` holds a comma,
which is outside the character class, and `Init` returns nil on the marked struct with
that field; the field is passed over and no table is produced. -/
theorem init_passes_over_bad_payload :
    (∃ c ∈ "columnType=decimal(10,2)".toList, tagClass c = false) ∧
    Init Column.init (parseAs priceFile) emptyInput examplePath =
      ({ PackageName := "models".toList, BuildTarget := "example/models_tabler.go".toList,
         Tables := [] }, Outcome.ok) := by
  decide

/-- C10, amended: a field whose tag literal is `tabler:"payload"` with a character outside
the character class in the payload is not matched by the tag pattern and `Init` treats
it exactly as a field without a tag: the result of `Init` is the one it has on the tree
in which the tag of that field is removed, so the field yields no column and raises no
tag error. -/
theorem init_skips_payload_outside_class (colInit : ColInit)
    (parseFile : Str → Option File × Option Str) (i : InputFile) (path : Str)
    (pkg : Option Str) (pre post : List Decl) (doc : List Str) (name : Option Str)
    (more : List Spec) (before after : List Field) (field : Field) (payload : Str)
    (c : Char)
    (hgo : hasSuffix path goExt = true)
    (hparse : (parseFile path).1 = some
      { Name := pkg
        Decls := pre ++ structDecl doc name (before ++ field :: after) more :: post })
    (htag : field.Tag = some (rawTag payload))
    (hc : c ∈ payload) (hclass : tagClass c = false) (hquote : '"' ∉ payload) :
    isTagged field = false ∧
    Init colInit parseFile i path =
      Init colInit
        (parseAs
          { Name := pkg
            Decls := pre ++
              structDecl doc name (before ++ { field with Tag := none } :: after) more ::
              post })
        i path := by
  have hun : isTagged field = false := by
    simp [isTagged, tagPayload, htag, tagPatternFind_rawTag ⟨c, hc, hclass⟩ hquote]
  refine ⟨hun, ?_⟩
  rw [Init_tree hgo hparse, Init_tree hgo (show (parseAs _ path).1 = some _ from rfl)]
  exact scanDecls_congr colInit pre post _ _
    (fun i1 => scanDecl_structDecl_congr colInit i1 doc name _ _ more
      (scanFields_congr colInit before after _ _
        (fun table => scanField_unmatched colInit table field hun))) _

theorem init_skips_payload_outside_class_witness :
    tagClass ',' = false ∧
    isTagged (taggedField "Amount" "string" "tabler:\"columnType=decimal(10,2)\"") = false ∧
    Init Column.init (parseAs priceFile) emptyInput examplePath =
      Init Column.init
        (parseAs
          { Name := some "models".toList
            Decls := [] ++
              structDecl ["// @table".toList] (some "Price".toList)
                ([] ++ { taggedField "Amount" "string" "tabler:\"columnType=decimal(10,2)\""
                          with Tag := none } :: []) [] :: [] })
        emptyInput examplePath :=
  ⟨by decide,
    init_skips_payload_outside_class Column.init (parseAs priceFile) emptyInput examplePath
      (some "models".toList) [] [] ["// @table".toList] (some "Price".toList) [] [] []
      (taggedField "Amount" "string" "tabler:\"columnType=decimal(10,2)\"")
      "columnType=decimal(10,2)".toList ',' (by decide) rfl rfl (by decide) (by decide)
      (by decide)⟩

/-- C1, the claim as stated fails: in the marked struct `Store` the field `DB` has the
printable type `*sql.DB` and a matching tabler tag, and `Init` makes it a column and a
primary key of the table. -/
theorem init_conn_field_becomes_column :
    fieldType dbField = connType ∧
    (Init Column.init (parseAs storeFile) emptyInput examplePath).1.Tables = [storeTable] ∧
    (∃ col ∈ storeTable.Columns, some col.Name = dbField.Names.head?) ∧
    (∃ col ∈ storeTable.PrimaryKeys, some col.Name = dbField.Names.head?) := by
  decide

/-- C1, amended: every table that `Init` adds is built from a marked struct of the tree,
and a field of that struct whose printable type is exactly `*sql.DB` becomes a column
exactly when it is tagged. With a matching tag it has its column like any other tagged
field, carrying its first name; without one, no element of `Columns` or `PrimaryKeys`
carries its name, as long as no tagged field of the struct shares that name. (The tag
interpreter is taken to store the name it is given.) -/
theorem init_conn_field_column_iff_tagged (colInit : ColInit)
    (parseFile : Str → Option File × Option Str) (i : InputFile) (path : Str) (f : File)
    (table : Table) (hname : KeepsName colInit) (hparse : (parseFile path).1 = some f)
    (h : table ∈ gained i (Init colInit parseFile i path)) :
    ∃ fields ∈ markedStructs f.Decls, BuiltFrom colInit fields table ∧
      ∀ field ∈ fields, fieldType field = connType →
        (isTagged field = true →
          ∃ col ∈ table.Columns, FromField colInit field col ∧
            some col.Name = field.Names.head?) ∧
        (isTagged field = false →
          (∀ other ∈ fields, isTagged other = true →
            other.Names.head? ≠ field.Names.head?) →
          ∀ col ∈ table.Columns ++ table.PrimaryKeys, some col.Name ≠ field.Names.head?) := by
  rcases hres : Init colInit parseFile i path with ⟨i1, o⟩
  obtain ⟨new, htables, -, hrest⟩ := Init_spec hres
  rw [hres, gained_eq htables] at h
  obtain ⟨structs, hsub, hall, -⟩ := hrest f hparse
  obtain ⟨fields, hmem, hb⟩ := Forall₂_mem_right hall h
  refine ⟨fields, hsub.subset hmem, hb, fun field hfield _ => ⟨fun htagged => ?_, ?_⟩⟩
  · have hin : field ∈ taggedFields fields := List.mem_filter.mpr ⟨hfield, htagged⟩
    obtain ⟨col, hcol, hfrom⟩ := Forall₂_mem_left hb.1 hin
    refine ⟨col, hcol, hfrom, ?_⟩
    obtain ⟨n, rest, payload, hnames, -, hinit⟩ := hfrom
    rw [hnames, hname _ _ _ _ hinit]
    rfl
  · intro _ hdistinct col hcol
    have hcol1 : col ∈ table.Columns := by
      rcases List.mem_append.mp hcol with hc | hc
      · exact hc
      · rw [hb.2] at hc; exact (List.mem_filter.mp hc).1
    obtain ⟨other, hother, n, rest, payload, hnames, -, hinit⟩ := Forall₂_mem_right hb.1 hcol1
    have hother1 := List.mem_filter.mp hother
    have := hdistinct other hother1.1 hother1.2
    rw [hnames, List.head?_cons, ← hname _ _ _ _ hinit] at this
    exact this

theorem init_conn_field_column_iff_tagged_witness :
    KeepsName Column.init ∧
    storeTable ∈ gained emptyInput (Init Column.init (parseAs storeFile) emptyInput examplePath) ∧
    ∃ fields ∈ markedStructs storeFile.Decls, BuiltFrom Column.init fields storeTable ∧
      ∀ field ∈ fields, fieldType field = connType →
        (isTagged field = true →
          ∃ col ∈ storeTable.Columns, FromField Column.init field col ∧
            some col.Name = field.Names.head?) ∧
        (isTagged field = false →
          (∀ other ∈ fields, isTagged other = true →
            other.Names.head? ≠ field.Names.head?) →
          ∀ col ∈ storeTable.Columns ++ storeTable.PrimaryKeys,
            some col.Name ≠ field.Names.head?) :=
  ⟨KeepsName_init, by decide,
    init_conn_field_column_iff_tagged Column.init (parseAs storeFile) emptyInput examplePath
      storeFile storeTable KeepsName_init rfl (by decide)⟩

/-- C2, the claim as stated fails: on `./user.go` the build target is `user_tabler.go`,
not `./user_tabler.go`, because `filepath.Join` cleans the path it returns. -/
theorem init_buildTarget_is_cleaned :
    hasSuffix "./user.go".toList goExt = true ∧
    (Init Column.init (parseAs exampleFile) emptyInput "./user.go".toList).1.BuildTarget =
      "user_tabler.go".toList ∧
    (Init Column.init (parseAs exampleFile) emptyInput "./user.go".toList).1.BuildTarget ≠
      trimSuffix "./user.go".toList goExt ++ tablerExt := by
  decide

/-- C2, amended: for every path that ends in `.go`, `Init` sets `BuildTarget` to the
cleaned form (`filepath.Clean`) of the path with its `.go` extension stripped followed by
`_tabler.go`, whatever the parser yields; for a path without a separator that is the
stripped path followed by `_tabler.go` itself. -/
theorem init_buildTarget (colInit : ColInit)
    (parseFile : Str → Option File × Option Str) (i : InputFile) (path : Str)
    (hgo : hasSuffix path goExt = true) :
    (Init colInit parseFile i path).1.BuildTarget =
        filepathClean (trimSuffix path goExt ++ tablerExt) ∧
      ((∀ c ∈ path, c ≠ '/') →
        (Init colInit parseFile i path).1.BuildTarget = trimSuffix path goExt ++ tablerExt) := by
  have hclean : (Init colInit parseFile i path).1.BuildTarget =
      filepathClean (trimSuffix path goExt ++ tablerExt) :=
    (Init_buildTarget hgo).trans (buildTarget_eq path)
  refine ⟨hclean, fun hsep => ?_⟩
  rw [hclean]
  apply filepathClean_no_sep
  · simp [tablerExt]
  · intro a ha
    rcases List.mem_append.mp ha with hroot | hext
    · apply hsep
      unfold trimSuffix at hroot
      rw [if_pos hgo] at hroot
      exact List.mem_of_mem_take hroot
    · rintro rfl
      revert hext
      decide

theorem init_buildTarget_witness :
    hasSuffix "models/user.go".toList goExt = true ∧
    filepathClean (trimSuffix "models/user.go".toList goExt ++ tablerExt) =
      "models/user_tabler.go".toList ∧
    (Init Column.init (parseAs exampleFile) emptyInput "models/user.go".toList).1.BuildTarget =
        filepathClean (trimSuffix "models/user.go".toList goExt ++ tablerExt) ∧
      ((∀ c ∈ "models/user.go".toList, c ≠ '/') →
        (Init Column.init (parseAs exampleFile) emptyInput "models/user.go".toList).1.BuildTarget =
          trimSuffix "models/user.go".toList goExt ++ tablerExt) :=
  ⟨by decide, by decide,
    init_buildTarget Column.init (parseAs exampleFile) emptyInput "models/user.go".toList
      (by decide)⟩

/-! ## Further lemmas on the scan -/

theorem tableName_nil_of_no_name (specs : List Spec)
    (h : ∀ ts, Spec.type ts ∈ specs → ts.Name = none ∨ ts.Name = some []) :
    tableName specs = [] := by
  induction specs with
  | nil => rfl
  | cons spec rest ih =>
    have hrest : ∀ ts, Spec.type ts ∈ rest → ts.Name = none ∨ ts.Name = some [] :=
      fun ts hts => h ts (List.mem_cons_of_mem _ hts)
    cases spec with
    | other => simpa [tableName] using ih hrest
    | type ts =>
      rcases h ts (List.mem_cons_self _ _) with hn | hn
      · simpa [tableName, hn] using ih hrest
      · simp [tableName, hn]

/-- A marked declaration without an extractable name stops the loop with the name error,
whatever its specs hold. -/
theorem scanDecl_no_name (colInit : ColInit) (i : InputFile) (doc : List Str)
    (specs : List Spec) (hmark : isTable doc = true) (hname : tableName specs = []) :
    scanDecl colInit i (Decl.gen { Doc := some doc, Specs := specs }) =
      (i, Outcome.error noNameMsg) := by
  simp [scanDecl, hmark, hname]

theorem Init_packageName {colInit : ColInit} {parseFile : Str → Option File × Option Str}
    {i : InputFile} {path : Str} {f : File} (hgo : hasSuffix path goExt = true)
    (hparse : (parseFile path).1 = some f) :
    (Init colInit parseFile i path).1.PackageName = f.Name.getD i.PackageName := by
  rw [Init_tree hgo hparse]
  rcases hres : scanDecls colInit f.Decls (startState i path f.Name) with ⟨i1, o⟩
  obtain ⟨new, -, hi1, -⟩ := scanDecls_spec f.Decls hres
  rw [hi1]
  cases f.Name <;> rfl

/-- Every table that `Init` adds has the primary columns, in order, as primary keys. -/
theorem gained_primaryKeys {colInit : ColInit} {parseFile : Str → Option File × Option Str}
    {i : InputFile} {path : Str} {table : Table}
    (h : table ∈ gained i (Init colInit parseFile i path)) :
    table.PrimaryKeys = table.Columns.filter fun col => col.IsPrimary := by
  rcases hres : Init colInit parseFile i path with ⟨i1, o⟩
  obtain ⟨new, htables, -, hrest⟩ := Init_spec hres
  rw [hres, gained_eq htables] at h
  cases hparse : (parseFile path).1 with
  | none =>
    cases hgo : hasSuffix path goExt
    · rw [Init_not_go hgo] at hres
      cases hres
      have hnil : new = [] := by simpa using htables
      rw [hnil] at h
      cases h
    · rw [Init_no_tree hgo hparse] at hres
      cases hres
      have hnil : new = [] := by simpa using htables
      rw [hnil] at h
      cases h
  | some f =>
    obtain ⟨structs, -, hall, -⟩ := hrest f hparse
    obtain ⟨fields, -, hb⟩ := Forall₂_mem_right hall h
    exact hb.2

/-- The loop body on a field that has a name whenever it is tagged or holds the
connection does not panic. -/
theorem scanField_no_panic (colInit : ColInit) (table : Table) (field : Field)
    (h : isTagged field = true ∨ fieldType field = connType → field.Names ≠ []) :
    scanField colInit table field ≠ Scan.panic := by
  have hconn : ∃ table1, scanConn table field = Scan.done table1 := by
    unfold scanConn
    split_ifs with hc
    · cases hn : field.Names with
      | nil => exact absurd hn (h (Or.inr hc))
      | cons n ns => exact ⟨_, rfl⟩
    · exact ⟨_, rfl⟩
  obtain ⟨table1, h1⟩ := hconn
  simp only [scanField, h1]
  cases htag : field.Tag with
  | none => simp [scanTag, htag]
  | some tag =>
    cases hfind : tagPatternFind tag with
    | none => simp [scanTag, htag, hfind]
    | some payload =>
      have htagged : isTagged field = true := by simp [isTagged, tagPayload, htag, hfind]
      cases hn : field.Names with
      | nil => exact absurd hn (h (Or.inl htagged))
      | cons n ns =>
        cases hc : colInit n (fieldType field) payload <;>
          simp [scanTag, htag, hfind, hn, hc]

theorem scanFields_no_panic (colInit : ColInit) (fields : List Field)
    (h : ∀ field ∈ fields,
      isTagged field = true ∨ fieldType field = connType → field.Names ≠ []) :
    ∀ table, scanFields colInit fields table ≠ Scan.panic := by
  induction fields with
  | nil => intro table; simp [scanFields]
  | cons field rest ih =>
    intro table
    unfold scanFields
    have h1 := scanField_no_panic colInit table field (h field (List.mem_cons_self _ _))
    cases hf : scanField colInit table field with
    | done table1 =>
      exact ih (fun fl hfl => h fl (List.mem_cons_of_mem _ hfl)) table1
    | error msg => simp
    | panic => exact absurd hf h1

theorem scanDecl_no_panic (colInit : ColInit) (i : InputFile) (decl : Decl)
    (hshape : isMarked decl = true → declName decl ≠ [] → (markedFields decl).isSome = true)
    (hnames : ∀ fields, markedFields decl = some fields → ∀ field ∈ fields,
      isTagged field = true ∨ fieldType field = connType → field.Names ≠ []) :
    (scanDecl colInit i decl).2 ≠ Outcome.panic := by
  cases decl with
  | other => simp [scanDecl]
  | gen tdecl =>
    obtain ⟨doc, specs⟩ := tdecl
    cases doc with
    | none => simp [scanDecl]
    | some doc =>
      cases hmark : isTable doc
      · simp [scanDecl, hmark]
      · by_cases hname : tableName specs = []
        · simp [scanDecl, hmark, hname]
        · have hsome := hshape (by simp [isMarked, hmark]) (by simpa [declName] using hname)
          obtain ⟨fields, hfields⟩ := Option.isSome_iff_exists.mp hsome
          have hall := hnames fields hfields
          simp only [markedFields, isMarked, hmark, if_true] at hfields
          cases specs with
          | nil => simp at hfields
          | cons spec rest =>
            cases spec with
            | other => simp at hfields
            | type ts =>
              obtain ⟨tname, typ⟩ := ts
              cases typ with
              | other => simp at hfields
              | struct fields1 =>
                have heq : fields1 = fields := by simpa using hfields
                subst heq
                have hscan := scanFields_no_panic colInit fields1 hall
                  (newTable (tableName (Spec.type ⟨tname, TypeExpr.struct fields1⟩ :: rest)))
                simp only [scanDecl, hmark, hname, Bool.not_true, Bool.false_eq_true,
                  if_false]
                cases hs : scanFields colInit fields1
                    (newTable (tableName (Spec.type ⟨tname, TypeExpr.struct fields1⟩ :: rest))) with
                | done table => simp only; split_ifs <;> simp
                | error msg => simp
                | panic => exact absurd hs hscan

theorem scanDecls_no_panic (colInit : ColInit) (decls : List Decl)
    (hshape : ∀ decl ∈ decls,
      isMarked decl = true → declName decl ≠ [] → (markedFields decl).isSome = true)
    (hnames : ∀ fields ∈ markedStructs decls, ∀ field ∈ fields,
      isTagged field = true ∨ fieldType field = connType → field.Names ≠ []) :
    ∀ i, (scanDecls colInit decls i).2 ≠ Outcome.panic := by
  induction decls with
  | nil => intro i; simp [scanDecls]
  | cons decl rest ih =>
    intro i
    have h1 := scanDecl_no_panic colInit i decl (hshape decl (List.mem_cons_self _ _))
      (fun fields hf => hnames fields (by
        rw [markedStructs_cons, markedStructs_of_some hf]; simp))
    have hrest := ih (fun d hd => hshape d (List.mem_cons_of_mem _ hd))
      (fun fields hf => hnames fields (by
        rw [markedStructs_cons]; exact List.mem_append_right _ hf))
    unfold scanDecls
    rcases hd : scanDecl colInit i decl with ⟨i1, o⟩
    rw [hd] at h1
    cases o with
    | ok => exact hrest i1
    | error msg => simp
    | panic => exact absurd rfl h1

/-! ## The printable type -/

theorem hasSuffix_append (a suffix : Str) : hasSuffix (a ++ suffix) suffix = true := by
  simp [hasSuffix, List.isSuffixOf, List.reverse_append]

theorem trimSuffix_append (a suffix : Str) : trimSuffix (a ++ suffix) suffix = a := by
  simp [trimSuffix, hasSuffix_append]

theorem replaceSpaces_of_no_space (t : Str) (h : ' ' ∉ t) : replaceSpaces t = t := by
  induction t with
  | nil => rfl
  | cons c t ih =>
    have hc : c ≠ ' ' := fun hc => h (hc ▸ List.mem_cons_self _ _)
    have ht : ' ' ∉ t := fun ht => h (List.mem_cons_of_mem _ ht)
    simp only [replaceSpaces, List.map_cons, if_neg hc] at ih ⊢
    rw [ih ht]

theorem replaceSpaces_no_space (t : Str) : ' ' ∉ replaceSpaces t := by
  intro h
  obtain ⟨c, -, hc⟩ := List.mem_map.mp h
  split_ifs at hc with hsp
  · revert hc; decide
  · exact hsp hc

/-! ## The connection field -/

theorem scanTag_conn {colInit : ColInit} {table table1 : Table} {field : Field}
    (h : scanTag colInit table field = Scan.done table1) :
    table1.HasConn = table.HasConn ∧ table1.Conn = table.Conn := by
  unfold scanTag at h
  repeat' split at h
  all_goals first
    | (cases h; exact ⟨rfl, rfl⟩)
    | cases h

theorem scanField_conn {colInit : ColInit} {table table1 : Table} {field : Field}
    (h : scanField colInit table field = Scan.done table1) :
    (isConn field = false ∧ table1.HasConn = table.HasConn ∧ table1.Conn = table.Conn) ∨
      (isConn field = true ∧ table1.HasConn = true ∧ some table1.Conn = field.Names.head?) := by
  unfold scanField at h
  split at h
  · next table0 hconn =>
    obtain ⟨hh, hc⟩ := scanTag_conn h
    unfold scanConn at hconn
    split_ifs at hconn with hty
    · split at hconn
      · cases hconn
      · next n ns hnames =>
        cases hconn
        exact Or.inr ⟨by simp [isConn, hty], hh, by rw [hc, hnames]; rfl⟩
    · cases hconn
      exact Or.inl ⟨by simp [isConn, hty], hh, hc⟩
  · cases h
  · cases h

/-- A finished scan of a field list leaves in `HasConn` and `Conn` what the last
connection field of the list put there, and what was there before when the list has
no connection field. -/
theorem scanFields_conn {colInit : ColInit} (fields : List Field) :
    ∀ {table table1 : Table}, scanFields colInit fields table = Scan.done table1 →
      (connFields fields = [] ∧ table1.HasConn = table.HasConn ∧ table1.Conn = table.Conn) ∨
      (∃ field, (connFields fields).getLast? = some field ∧ table1.HasConn = true ∧
        some table1.Conn = field.Names.head?) := by
  induction fields with
  | nil =>
    intro table table1 h
    cases h
    exact Or.inl ⟨rfl, rfl, rfl⟩
  | cons field rest ih =>
    intro table table1 h
    unfold scanFields at h
    split at h
    · next table0 hfield =>
      rcases ih h with ⟨hnil, hh, hc⟩ | ⟨last, hlast, hh, hc⟩
      · rcases scanField_conn hfield with ⟨hno, hh0, hc0⟩ | ⟨hyes, hh0, hc0⟩
        · exact Or.inl ⟨by simp [connFields, List.filter_cons, hno] at hnil ⊢; exact hnil,
            hh.trans hh0, hc.trans hc0⟩
        · refine Or.inr ⟨field, ?_, hh.trans hh0, by rw [hc]; exact hc0⟩
          simp only [connFields, List.filter_cons, hyes, if_true] at hnil ⊢
          rw [hnil]
          rfl
      · refine Or.inr ⟨last, ?_, hh, hc⟩
        cases hyes : isConn field
        · simpa [connFields, List.filter_cons, hyes] using hlast
        · simp only [connFields, List.filter_cons, hyes, if_true] at hlast ⊢
          cases hrest : List.filter isConn rest with
          | nil => rw [hrest] at hlast; cases hlast
          | cons x xs => rw [hrest] at hlast; rw [List.getLast?_cons_cons]; exact hlast
    · cases h
    · cases h

/-- One run of the loop body over a declaration: every table it adds is what the loop
over the fields of the marked struct of the declaration ends with. -/
theorem scanDecl_scanned {colInit : ColInit} {i i1 : InputFile} {decl : Decl} {o : Outcome}
    (h : scanDecl colInit i decl = (i1, o)) :
    ∃ new, i1.Tables = i.Tables ++ new ∧
      ∀ table ∈ new, ∃ fields ∈ markedStructs [decl], ScannedFrom colInit fields table := by
  have hsame : ∀ o1 : Outcome, (i, o1) = (i1, o) →
      ∃ new, i1.Tables = i.Tables ++ new ∧
        ∀ table ∈ new, ∃ fields ∈ markedStructs [decl], ScannedFrom colInit fields table := by
    intro o1 heq
    cases heq
    exact ⟨[], by simp, by simp⟩
  unfold scanDecl at h
  split at h
  · exact hsame _ h
  · next tdecl =>
    split at h
    · exact hsame _ h
    · next doc hdoc =>
      split_ifs at h with hmark hname
      · exact hsame _ h
      · exact hsame _ h
      · have hmark1 : isTable doc = true := by simpa using hmark
        split at h
        · next ts rest hspecs =>
          split at h
          · next fields htyp =>
            have hsome : markedFields (Decl.gen tdecl) = some fields := by
              simp [markedFields, isMarked, hdoc, hmark1, hspecs, htyp]
            split at h
            · next table hscan =>
              split_ifs at h
              · cases h
                refine ⟨[table], rfl, fun t ht => ?_⟩
                have : t = table := by simpa using ht
                subst this
                exact ⟨fields, by rw [markedStructs_of_some hsome]; simp, _, hscan⟩
              · exact hsame _ h
            · exact hsame _ h
            · exact hsame _ h
          · exact hsame _ h
        · exact hsame _ h

theorem scanDecls_scanned {colInit : ColInit} (decls : List Decl) :
    ∀ {i i1 : InputFile} {o : Outcome}, scanDecls colInit decls i = (i1, o) →
      ∃ new, i1.Tables = i.Tables ++ new ∧
        ∀ table ∈ new, ∃ fields ∈ markedStructs decls, ScannedFrom colInit fields table := by
  induction decls with
  | nil =>
    intro i i1 o h
    cases h
    exact ⟨[], by simp, by simp⟩
  | cons decl rest ih =>
    intro i i1 o h
    unfold scanDecls at h
    split at h
    · next i2 hdecl =>
      obtain ⟨new1, ht1, hall1⟩ := scanDecl_scanned hdecl
      obtain ⟨new2, ht2, hall2⟩ := ih h
      refine ⟨new1 ++ new2, by rw [ht2, ht1, List.append_assoc], fun table hmem => ?_⟩
      rw [markedStructs_cons]
      rcases List.mem_append.mp hmem with hm | hm
      · obtain ⟨fields, hf, hs⟩ := hall1 table hm
        exact ⟨fields, List.mem_append_left _ hf, hs⟩
      · obtain ⟨fields, hf, hs⟩ := hall2 table hm
        exact ⟨fields, List.mem_append_right _ hf, hs⟩
    · obtain ⟨new1, ht1, hall1⟩ := scanDecl_scanned h
      refine ⟨new1, ht1, fun table hm => ?_⟩
      obtain ⟨fields, hf, hs⟩ := hall1 table hm
      rw [markedStructs_cons]
      exact ⟨fields, List.mem_append_left _ hf, hs⟩

/-- Every table that `Init` adds is what the loop over the fields of a marked struct of
the syntax tree ends with. -/
theorem gained_scanned {colInit : ColInit} {parseFile : Str → Option File × Option Str}
    {i : InputFile} {path : Str} {f : File} {table : Table}
    (hparse : (parseFile path).1 = some f)
    (h : table ∈ gained i (Init colInit parseFile i path)) :
    ∃ fields ∈ markedStructs f.Decls, ScannedFrom colInit fields table := by
  cases hgo : hasSuffix path goExt
  · rw [Init_not_go hgo] at h
    simp [gained] at h
  · rw [Init_tree hgo hparse] at h
    rcases hres : scanDecls colInit f.Decls (startState i path f.Name) with ⟨i1, o⟩
    obtain ⟨new, htables, hall⟩ := scanDecls_scanned f.Decls hres
    rw [startState_tables] at htables
    rw [hres, gained_eq htables] at h
    exact hall table h

/-- The loop body reads only the first name of a field. -/
theorem scanField_first_name (colInit : ColInit) (table : Table) (field : Field)
    (a : Str) (rest : List Str) (hnames : field.Names = a :: rest) :
    scanField colInit table field =
      scanField colInit table { field with Names := [a] } := by
  have hty : fieldType { field with Names := [a] } = fieldType field := rfl
  simp only [scanField, scanConn, scanTag, hty, hnames]

/-- The loop body on a tagged field that the tag interpreter accepts appends the
column made for the first name of the field, and no other. -/
theorem scanField_accepted (colInit : ColInit) (table : Table) (field : Field)
    (a payload : Str) (rest : List Str) (col : Column) (hnames : field.Names = a :: rest)
    (hpayload : tagPayload field = some payload)
    (hinit : colInit a (fieldType field) payload = Except.ok col) :
    ∃ table1, scanField colInit table field = Scan.done table1 ∧
      table1.Columns = table.Columns ++ [col] := by
  obtain ⟨tag, htag, hfind⟩ : ∃ tag, field.Tag = some tag ∧ tagPatternFind tag = some payload := by
    unfold tagPayload at hpayload
    cases htag : field.Tag with
    | none => rw [htag] at hpayload; cases hpayload
    | some tag => rw [htag] at hpayload; exact ⟨tag, rfl, hpayload⟩
  unfold scanField scanConn
  split_ifs <;> simp [hnames, scanTag, htag, hfind, hinit]

/-! ## The claims, continued -/

/-- C11: when the scan reaches a marked declaration none of whose specs is a type spec
with a non-empty name (the declarations before it are scanned without a stop), `Init`
returns the name error with the receiver as those earlier declarations left it. The
result is the same whatever the specs of the declaration contain, so no field of it is
looked at, and the later declarations are not scanned. -/
theorem init_fails_without_table_name (colInit : ColInit)
    (parseFile : Str → Option File × Option Str) (i : InputFile) (path : Str)
    (pkg : Option Str) (pre post : List Decl) (doc : List Str) (specs : List Spec)
    (hgo : hasSuffix path goExt = true)
    (hparse : (parseFile path).1 = some
      { Name := pkg, Decls := pre ++ Decl.gen { Doc := some doc, Specs := specs } :: post })
    (hmark : isTable doc = true)
    (hnoname : ∀ ts, Spec.type ts ∈ specs → ts.Name = none ∨ ts.Name = some [])
    (hreach : (Init colInit (parseAs { Name := pkg, Decls := pre }) i path).2 = Outcome.ok) :
    Init colInit parseFile i path =
      ((Init colInit (parseAs { Name := pkg, Decls := pre }) i path).1,
        Outcome.error noNameMsg) := by
  rw [Init_tree hgo (show (parseAs _ path).1 = some _ from rfl)] at hreach
  rw [Init_tree hgo hparse, Init_tree hgo (show (parseAs _ path).1 = some _ from rfl)]
  simp only [scanDecls_append]
  rcases hpre : scanDecls colInit pre (startState i path pkg) with ⟨ipre, opre⟩
  rw [hpre] at hreach
  cases opre with
  | error msg => cases hreach
  | panic => cases hreach
  | ok =>
    simp only [scanDecls,
      scanDecl_no_name colInit ipre doc specs hmark (tableName_nil_of_no_name specs hnoname)]

theorem init_fails_without_table_name_witness :
    (Init Column.init (parseAs exampleFile) emptyInput examplePath).2 = Outcome.ok ∧
    Init Column.init (parseAs partialFile) emptyInput examplePath =
      ((Init Column.init
          (parseAs { Name := some "models".toList, Decls := [userDecl, profileDecl] })
          emptyInput examplePath).1,
        Outcome.error noNameMsg) :=
  ⟨by decide,
    init_fails_without_table_name Column.init (parseAs partialFile) emptyInput examplePath
      (some "models".toList) [userDecl, profileDecl] [] ["// @table".toList] [Spec.other]
      (by decide) rfl (by decide) (fun ts hts => by simp at hts) (by decide)⟩

/-- C13, the claim as stated fails: the table of the marked struct `Key`, whose only
column is primary, has `PrimaryKeys` equal to the whole of `Columns`. -/
theorem init_primaryKeys_may_be_all :
    keyTable ∈ gained emptyInput (Init Column.init (parseAs keyFile) emptyInput examplePath) ∧
    keyTable.PrimaryKeys = keyTable.Columns := by
  decide

/-- C13, amended: in every table that `Init` adds, `PrimaryKeys` is an order-preserving
subsequence of `Columns`; it is the whole of `Columns` exactly when every column is
primary, and a proper subsequence otherwise. -/
theorem init_primaryKeys_sublist (colInit : ColInit)
    (parseFile : Str → Option File × Option Str) (i : InputFile) (path : Str)
    (table : Table) (h : table ∈ gained i (Init colInit parseFile i path)) :
    table.PrimaryKeys.Sublist table.Columns ∧
      (table.PrimaryKeys = table.Columns ↔ ∀ col ∈ table.Columns, col.IsPrimary = true) := by
  rw [gained_primaryKeys h]
  exact ⟨List.filter_sublist _, List.filter_eq_self⟩

theorem init_primaryKeys_sublist_witness :
    profileTable ∈ gained emptyInput (Init Column.init (parseAs exampleFile) emptyInput examplePath) ∧
    profileTable.PrimaryKeys.Sublist profileTable.Columns ∧
      (profileTable.PrimaryKeys = profileTable.Columns ↔
        ∀ col ∈ profileTable.Columns, col.IsPrimary = true) :=
  ⟨by decide,
    init_primaryKeys_sublist Column.init (parseAs exampleFile) emptyInput examplePath
      profileTable (by decide)⟩

/-- C14, the claim as stated fails: when the parser hands back no syntax tree `Init`
stops with a panic at `f.Name`, and when the parser reports an error together with the
tree of the example file `Init` ends with the package name `models`, not with an empty
one. -/
theorem init_parse_failure_outcomes :
    (Init Column.init parseUnreadable emptyInput examplePath).2 = Outcome.panic ∧
    (parseWithError examplePath).2 ≠ none ∧
    (Init Column.init parseWithError emptyInput examplePath).1.PackageName =
      "models".toList := by
  decide

/-- C14, amended: when the parser reports an error and still hands back a syntax tree,
`Init` drops the error and goes on exactly as if the tree had been parsed without one;
`PackageName` ends as the name of the tree's package identifier, and keeps its prior
value when the tree has no such identifier. -/
theorem init_drops_parse_error (colInit : ColInit)
    (parseFile : Str → Option File × Option Str) (i : InputFile) (path : Str) (f : File)
    (err : Str) (hgo : hasSuffix path goExt = true)
    (hparse : parseFile path = (some f, some err)) :
    Init colInit parseFile i path = Init colInit (parseAs f) i path ∧
      (Init colInit parseFile i path).1.PackageName = f.Name.getD i.PackageName := by
  have htree : (parseFile path).1 = some f := by rw [hparse]
  refine ⟨?_, Init_packageName hgo htree⟩
  rw [Init_tree hgo htree, Init_tree hgo (show (parseAs f path).1 = some f from rfl)]

theorem init_drops_parse_error_witness :
    hasSuffix examplePath goExt = true ∧
    Init Column.init parseWithError emptyInput examplePath =
      Init Column.init (parseAs exampleFile) emptyInput examplePath ∧
    (Init Column.init parseWithError emptyInput examplePath).1.PackageName =
      exampleFile.Name.getD emptyInput.PackageName :=
  ⟨by decide,
    init_drops_parse_error Column.init parseWithError emptyInput examplePath exampleFile
      "example/models.go:22:1: expected declaration".toList (by decide) rfl⟩

/-- C16: a qualified type printed as `&{pkg T}` is normalised to `pkg.T` (for `pkg` and
`T` without a space), a text without a space and without a brace, such as a plain
identifier, is left as it is, the result of `printableType` never contains a space, and
a pointer field type is rendered as `*` followed by the normalised pointee type. -/
theorem printableType_normalises (pkg T : Str) (hpkg : ' ' ∉ pkg) (hT : ' ' ∉ T) :
    printableType (['&', '\x7b'] ++ pkg ++ [' '] ++ T ++ ['\x7d']) = pkg ++ ['.'] ++ T ∧
    (∀ name : Str, ' ' ∉ name → '\x7b' ∉ name → '\x7d' ∉ name → printableType name = name) ∧
    (∀ t : Str, ' ' ∉ printableType t) ∧
    (∀ (field : Field) (x : Expr), field.Typ = FieldType.star x →
      fieldType field = '*' :: printableType (sprintV x)) := by
  refine ⟨?_, ?_, ?_, ?_⟩
  · have h1 : trimPrefix (['&', '\x7b'] ++ pkg ++ [' '] ++ T ++ ['\x7d']) ['&', '\x7b'] =
        (pkg ++ [' '] ++ T) ++ ['\x7d'] := by
      simp [trimPrefix, hasPrefix, List.isPrefixOf]
    simp only [printableType, h1, trimSuffix_append]
    simp only [replaceSpaces, List.map_append, List.map_cons, List.map_nil, if_true]
    have hp := replaceSpaces_of_no_space pkg hpkg
    have ht := replaceSpaces_of_no_space T hT
    simp only [replaceSpaces] at hp ht
    rw [hp, ht]
  · intro name hsp hopen hclose
    have h1 : trimPrefix name ['&', '\x7b'] = name := by
      have hpre : hasPrefix name ['&', '\x7b'] = false := by
        cases hp : hasPrefix name ['&', '\x7b']
        · rfl
        · obtain ⟨t, rfl⟩ := (hasPrefix_iff _ _).mp hp
          exact absurd (by simp) hopen
      simp [trimPrefix, hpre]
    have h2 : trimSuffix name ['\x7d'] = name := by
      have hsuf : hasSuffix name ['\x7d'] = false := by
        cases hs : hasSuffix name ['\x7d']
        · rfl
        · have : ['\x7d'] <:+ name := by
            simpa [hasSuffix, List.isSuffixOf_iff_suffix] using hs
          obtain ⟨t, rfl⟩ := this
          exact absurd (by simp) hclose
      simp [trimSuffix, hsuf]
    simp only [printableType, h1, h2]
    exact replaceSpaces_of_no_space name hsp
  · intro t
    exact replaceSpaces_no_space _
  · intro field x hx
    simp [fieldType, hx]

theorem printableType_normalises_witness :
    ' ' ∉ "time".toList ∧ ' ' ∉ "Time".toList ∧
    printableType (['&', '\x7b'] ++ "time".toList ++ [' '] ++ "Time".toList ++ ['\x7d']) =
      "time".toList ++ ['.'] ++ "Time".toList ∧
    (∀ name : Str, ' ' ∉ name → '\x7b' ∉ name → '\x7d' ∉ name → printableType name = name) ∧
    (∀ t : Str, ' ' ∉ printableType t) ∧
    (∀ (field : Field) (x : Expr), field.Typ = FieldType.star x →
      fieldType field = '*' :: printableType (sprintV x)) :=
  ⟨by decide, by decide,
    printableType_normalises "time".toList "Time".toList (by decide) (by decide)⟩

/-- C19: on a path whose parse yields a syntax tree in which every marked declaration
with an extractable name has a struct type as its first spec, and in which every field
of such a struct that is tagged or has the type `*sql.DB` declares a name, `Init` does
not panic: it returns nil or it returns an error. (The tag interpreter is taken not to
panic itself.) -/
theorem init_total_on_well_shaped_tree (colInit : ColInit)
    (parseFile : Str → Option File × Option Str) (i : InputFile) (path : Str) (f : File)
    (hparse : (parseFile path).1 = some f)
    (hshape : ∀ decl ∈ f.Decls,
      isMarked decl = true → declName decl ≠ [] → (markedFields decl).isSome = true)
    (hnames : ∀ fields ∈ markedStructs f.Decls, ∀ field ∈ fields,
      isTagged field = true ∨ fieldType field = connType → field.Names ≠ []) :
    (Init colInit parseFile i path).2 = Outcome.ok ∨
      ∃ msg, (Init colInit parseFile i path).2 = Outcome.error msg := by
  cases hgo : hasSuffix path goExt
  · rw [Init_not_go hgo]
    exact Or.inr ⟨_, rfl⟩
  · have hno := scanDecls_no_panic colInit f.Decls hshape hnames (startState i path f.Name)
    rw [Init_tree hgo hparse]
    cases ho : (scanDecls colInit f.Decls (startState i path f.Name)).2 with
    | ok => exact Or.inl rfl
    | error msg => exact Or.inr ⟨msg, rfl⟩
    | panic => exact absurd ho hno

theorem init_total_on_well_shaped_tree_witness :
    (∀ decl ∈ partialFile.Decls,
      isMarked decl = true → declName decl ≠ [] → (markedFields decl).isSome = true) ∧
    (∀ fields ∈ markedStructs partialFile.Decls, ∀ field ∈ fields,
      isTagged field = true ∨ fieldType field = connType → field.Names ≠ []) ∧
    ((Init Column.init (parseAs partialFile) emptyInput examplePath).2 = Outcome.ok ∨
      ∃ msg, (Init Column.init (parseAs partialFile) emptyInput examplePath).2 =
        Outcome.error msg) :=
  ⟨by decide, by decide,
    init_total_on_well_shaped_tree Column.init (parseAs partialFile) emptyInput examplePath
      partialFile rfl (by decide) (by decide)⟩

/-- C12: every table that `Init` adds is the outcome of the scan of a marked struct of
the tree, and for that struct `HasConn` is true exactly when one of its fields has the
printable type `*sql.DB`; then `Conn` is the first name of the last such field in
declaration order, and when no field has that type `HasConn` is false and `Conn` is
empty. -/
theorem init_conn_is_last_db_field (colInit : ColInit)
    (parseFile : Str → Option File × Option Str) (i : InputFile) (path : Str) (f : File)
    (table : Table) (hparse : (parseFile path).1 = some f)
    (h : table ∈ gained i (Init colInit parseFile i path)) :
    ∃ fields ∈ markedStructs f.Decls, ScannedFrom colInit fields table ∧
      (table.HasConn = true ↔ ∃ field ∈ fields, fieldType field = connType) ∧
      (∀ field, (connFields fields).getLast? = some field →
        some table.Conn = field.Names.head?) ∧
      ((∀ field ∈ fields, fieldType field ≠ connType) →
        table.HasConn = false ∧ table.Conn = []) := by
  obtain ⟨fields, hmem, name, hscan⟩ := gained_scanned hparse h
  refine ⟨fields, hmem, ⟨name, hscan⟩, ?_⟩
  have hnone : connFields fields = [] ↔ ∀ field ∈ fields, fieldType field ≠ connType := by
    simp [connFields, List.filter_eq_nil_iff, isConn]
  rcases scanFields_conn fields hscan with ⟨hnil, hh, hc⟩ | ⟨last, hlast, hh, hc⟩
  · have hall := hnone.mp hnil
    refine ⟨?_, ?_, fun _ => ⟨hh, hc⟩⟩
    · rw [hh]
      constructor
      · intro hfalse; cases hfalse
      · rintro ⟨field, hfield, hty⟩; exact absurd hty (hall field hfield)
    · intro field hfield
      rw [hnil] at hfield
      cases hfield
  · have hin : last ∈ connFields fields := List.mem_of_getLast?_eq_some hlast
    have hin1 := List.mem_filter.mp hin
    have hty : fieldType last = connType := by simpa [isConn] using hin1.2
    refine ⟨?_, ?_, fun hall => absurd hty (hall last hin1.1)⟩
    · exact ⟨fun _ => ⟨last, hin1.1, hty⟩, fun _ => hh⟩
    · intro field hfield
      rw [hlast] at hfield
      cases hfield
      exact hc

theorem init_conn_is_last_db_field_witness :
    repoTable ∈ gained emptyInput (Init Column.init (parseAs repoFile) emptyInput examplePath) ∧
    ∃ fields ∈ markedStructs repoFile.Decls, ScannedFrom Column.init fields repoTable ∧
      (repoTable.HasConn = true ↔ ∃ field ∈ fields, fieldType field = connType) ∧
      (∀ field, (connFields fields).getLast? = some field →
        some repoTable.Conn = field.Names.head?) ∧
      ((∀ field ∈ fields, fieldType field ≠ connType) →
        repoTable.HasConn = false ∧ repoTable.Conn = []) :=
  ⟨by decide,
    init_conn_is_last_db_field Column.init (parseAs repoFile) emptyInput examplePath
      repoFile repoTable rfl (by decide)⟩

/-- A finished scan of a field list around a tagged field with a name: the columns
appended are those of the tagged fields before it, then the one column that the tag
interpreter makes for the first name of the field, then those of the tagged fields
after it. -/
theorem scanFields_around_tagged {colInit : ColInit} (before after : List Field)
    (field : Field) (a payload : Str) (ns : List Str) {table table1 : Table}
    (hnames : field.Names = a :: ns) (hpayload : tagPayload field = some payload)
    (h : scanFields colInit (before ++ field :: after) table = Scan.done table1) :
    table1.Name = table.Name ∧
    ∃ cb col ca, table1.Columns = table.Columns ++ cb ++ col :: ca ∧
      List.Forall₂ (FromField colInit) (taggedFields before) cb ∧
      colInit a (fieldType field) payload = Except.ok col ∧
      List.Forall₂ (FromField colInit) (taggedFields after) ca := by
  rw [scanFields_append] at h
  cases hb : scanFields colInit before table with
  | error msg => rw [hb] at h; cases h
  | panic => rw [hb] at h; cases h
  | done table0 =>
    rw [hb] at h
    simp only [scanFields] at h
    cases hf : scanField colInit table0 field with
    | error msg => rw [hf] at h; cases h
    | panic => rw [hf] at h; cases h
    | done table2 =>
      rw [hf] at h
      obtain ⟨hn0, cb, hcb, hc0, -⟩ := scanFields_done before hb
      obtain ⟨hn2, hcase⟩ := scanField_done hf
      obtain ⟨hn1, ca, hca, hc1, -⟩ := scanFields_done after h
      have htagged : isTagged field = true := by simp [isTagged, hpayload]
      rcases hcase with ⟨hno, -, -⟩ | ⟨-, col, hfrom, hc2, -⟩
      · rw [htagged] at hno; cases hno
      · obtain ⟨n, rest, payload1, hn, hp, hinit⟩ := hfrom
        rw [hnames] at hn
        rw [hpayload] at hp
        cases hn
        cases hp
        refine ⟨hn1.trans (hn2.trans hn0), cb, col, ca, ?_, hcb, hinit, hca⟩
        rw [hc1, hc2, hc0]
        simp

/-- C18: take a marked struct with a tagged field entry that declares several names,
and let the scan get through that struct without a stop. Then `Init` has added a table
for the struct, after the tables of the declarations before it, and the columns of
that table are the columns of the tagged fields before the entry, then exactly one
column for the entry, the one `Column.init` makes for its first name and carrying that
name, then the columns of the tagged fields after the entry. The further names of the
entry yield nothing: `Init` ends the same way with the same receiver when they are
removed from the entry. (The tag interpreter is taken to store the name it is
given.) -/
theorem init_multi_name_field_one_column (colInit : ColInit)
    (parseFile : Str → Option File × Option Str) (i : InputFile) (path : Str)
    (pkg : Option Str) (pre post : List Decl) (doc : List Str) (name : Option Str)
    (more : List Spec) (before after : List Field) (field : Field)
    (a b payload : Str) (rest : List Str)
    (hname : KeepsName colInit)
    (hgo : hasSuffix path goExt = true)
    (hparse : (parseFile path).1 = some
      { Name := pkg
        Decls := pre ++ structDecl doc name (before ++ field :: after) more :: post })
    (hmark : isTable doc = true)
    (hreach : (Init colInit
      (parseAs
        { Name := pkg
          Decls := pre ++ [structDecl doc name (before ++ field :: after) more] })
      i path).2 = Outcome.ok)
    (hnames : field.Names = a :: b :: rest)
    (hpayload : tagPayload field = some payload) :
    (∃ tpre table tpost cb col ca,
      (Init colInit parseFile i path).1.Tables = i.Tables ++ tpre ++ table :: tpost ∧
      List.Forall₂ (BuiltFrom colInit) (keptStructs pre) tpre ∧
      table.Name = declName (structDecl doc name (before ++ field :: after) more) ∧
      table.Columns = cb ++ col :: ca ∧
      List.Forall₂ (FromField colInit) (taggedFields before) cb ∧
      colInit a (fieldType field) payload = Except.ok col ∧ col.Name = a ∧
      List.Forall₂ (FromField colInit) (taggedFields after) ca) ∧
    Init colInit parseFile i path =
      Init colInit
        (parseAs
          { Name := pkg
            Decls := pre ++
              structDecl doc name (before ++ { field with Names := [a] } :: after) more ::
              post })
        i path := by
  constructor
  · rw [Init_tree hgo (show (parseAs _ path).1 = some _ from rfl)] at hreach
    rw [Init_tree hgo hparse]
    simp only [scanDecls_append] at hreach ⊢
    rcases hpre : scanDecls colInit pre (startState i path pkg) with ⟨ipre, opre⟩
    rw [hpre] at hreach
    cases opre with
    | error msg => cases hreach
    | panic => cases hreach
    | ok =>
      obtain ⟨tpre, structs, hipre, -, hallpre, -, hkept⟩ := scanDecls_spec pre hpre
      rw [hkept rfl] at hallpre
      simp only [scanDecls, scanDecl_structDecl colInit ipre doc name _ more hmark]
        at hreach ⊢
      by_cases hnone :
          tableName (Spec.type { Name := name, Typ := TypeExpr.other } :: more) = []
      · rw [if_pos hnone] at hreach
        cases hreach
      · rw [if_neg hnone] at hreach
        rw [if_neg hnone]
        cases hscan : scanFields colInit (before ++ field :: after)
            (newTable (tableName (Spec.type { Name := name, Typ := TypeExpr.other } :: more))) with
        | error msg => rw [hscan] at hreach; cases hreach
        | panic => rw [hscan] at hreach; cases hreach
        | done table =>
          obtain ⟨htname, cb, col, ca, hcols, hcb, hinit, hca⟩ :=
            scanFields_around_tagged before after field a payload (b :: rest) hnames
              hpayload hscan
          simp only [newTable, List.nil_append] at htname hcols
          have hlen : table.Columns.length > 0 := by
            rw [hcols]; simp
          simp only [hlen, if_true]
          rcases hpost : scanDecls colInit post
              { ipre with Tables := ipre.Tables ++ [table] } with ⟨i3, o3⟩
          obtain ⟨tpost, -, hi3, -⟩ := scanDecls_spec post hpost
          refine ⟨tpre, table, tpost, cb, col, ca, ?_, hallpre, ?_, hcols, hcb, hinit,
            hname _ _ _ _ hinit, hca⟩
          · rw [hi3, hipre]
            simp [withTables, startState_tables]
          · rw [htname]
            simp [declName, structDecl, tableName]
  · rw [Init_tree hgo hparse, Init_tree hgo (show (parseAs _ path).1 = some _ from rfl)]
    exact scanDecls_congr colInit pre post _ _
      (fun i1 => scanDecl_structDecl_congr colInit i1 doc name _ _ more
        (scanFields_congr colInit before after _ _
          (fun table => scanField_first_name colInit table field a (b :: rest) hnames))) _

theorem init_multi_name_field_one_column_witness :
    KeepsName Column.init ∧
    (Init Column.init
      (parseAs { Name := some "models".toList, Decls := [userDecl] ++ [pairsDecl] })
      emptyInput examplePath).2 = Outcome.ok ∧
    pairField.Names = "A".toList :: "B".toList :: [] ∧
    tableShape (Init Column.init (parseAs pairsFile) emptyInput examplePath).1 =
      [("User".toList, ["ID".toList, "Email".toList, "Created".toList]),
        ("Pair".toList, ["ID".toList, "A".toList, "Note".toList]),
        ("Profile".toList, ["UserID".toList, "Attribute".toList, "Value".toList])] ∧
    (∃ tpre table tpost cb col ca,
      (Init Column.init (parseAs pairsFile) emptyInput examplePath).1.Tables =
        emptyInput.Tables ++ tpre ++ table :: tpost ∧
      List.Forall₂ (BuiltFrom Column.init) (keptStructs [userDecl]) tpre ∧
      table.Name = declName pairsDecl ∧
      table.Columns = cb ++ col :: ca ∧
      List.Forall₂ (FromField Column.init)
        (taggedFields [taggedField "ID" "string" "tabler:\"columnType=uuid&primary=true\""])
        cb ∧
      Column.init "A".toList (fieldType pairField) "columnType=text".toList =
        Except.ok col ∧ col.Name = "A".toList ∧
      List.Forall₂ (FromField Column.init)
        (taggedFields [taggedField "Note" "string" "tabler:\"columnType=text\""]) ca) ∧
    Init Column.init (parseAs pairsFile) emptyInput examplePath =
      Init Column.init
        (parseAs
          { Name := some "models".toList
            Decls := [userDecl] ++
              structDecl ["// @table".toList] (some "Pair".toList)
                ([taggedField "ID" "string" "tabler:\"columnType=uuid&primary=true\""] ++
                  { pairField with Names := ["A".toList] } ::
                  [taggedField "Note" "string" "tabler:\"columnType=text\""]) [] ::
              [profileDecl] })
        emptyInput examplePath :=
  ⟨KeepsName_init, by decide, rfl, by decide,
    init_multi_name_field_one_column Column.init (parseAs pairsFile) emptyInput examplePath
      (some "models".toList) [userDecl] [profileDecl] ["// @table".toList]
      (some "Pair".toList) []
      [taggedField "ID" "string" "tabler:\"columnType=uuid&primary=true\""]
      [taggedField "Note" "string" "tabler:\"columnType=text\""]
      pairField "A".toList "B".toList "columnType=text".toList []
      KeepsName_init (by decide) rfl (by decide) (by decide) rfl (by decide)⟩

/-! ## The template helpers and `Write` -/

theorem toLower_ascii (c : Char) (hc : c.toNat ≤ 0x7F) : c.toLower.toNat < 0x80 := by
  have hall : ∀ n : Fin 128, (Char.ofNat n).toLower.toNat < 0x80 := by decide
  have := hall ⟨c.toNat, by omega⟩
  simpa [Char.ofNat_toNat] using this

/-- On a name whose first character is an ASCII character the helper `caller` yields
the one-character string with that character lowered. -/
theorem caller_of_ascii_initial (toCase : Char → Char) (c : Char) (rest : Str)
    (hc : c.toNat ≤ 0x7F) :
    caller toCase (c :: rest) = some (goBytes [c.toLower]) ∧
      goBytes [c.toLower] = [c.toLower.toNat] := by
  have hlow := toLower_ascii c hc
  have hbytes : utf8Bytes c.toLower = [c.toLower.toNat] := by
    simp [utf8Bytes, hlow]
  simp [caller, stringsToLower, unicodeToLower, hc, goBytes, hbytes]

/-- Below the largest `int` the helper `plus1` yields the successor. -/
theorem plus1_eq (x : Int) (hlo : -2 ^ 63 ≤ x) (hhi : x < 2 ^ 63 - 1) : plus1 x = x + 1 := by
  unfold plus1 wrapInt
  norm_num at hlo hhi ⊢
  omega

/-- What `Write` does with the outcome of the template execution: the rendered text is
written to the build target and the error of the write is returned, whether or not the
execution returned an error. -/
theorem Write_eq (execute : InputFile → Str × Option Str)
    (writeFile : Str → Str → Option Str) (i : InputFile) :
    Write execute writeFile i =
      ([(i.BuildTarget, (execute i).1)], writeFile i.BuildTarget (execute i).1) :=
  rfl

/-- C15, the code at a failing input: on the name `Émile` the helper `caller` yields the
single byte 0xC3, which is the first byte of the lowered name and not the two-byte
string of its first character, and on `世界` it yields the single byte 0xE4 of a
three-byte character. -/
theorem caller_yields_first_byte :
    caller latin1Lower "Émile".toList = some [0xC3] ∧
    goBytes [unicodeToLower latin1Lower 'É'] = [0xC3, 0xA9] ∧
    caller latin1Lower "世界".toList = some [0xE4] ∧
    goBytes [unicodeToLower latin1Lower '世'] = [0xE4, 0xB8, 0x96] := by
  decide

/-- C17, the code at a failing input: the template execution fails after the header of
the document is rendered, and `Write` still writes that partial text to the build
target and returns nil. -/
theorem write_ignores_render_error :
    (failingExecute exampleInput).2 ≠ none ∧
    Write failingExecute writeSucceeds exampleInput =
      ([("example/models_tabler.go".toList,
          "// generated by tabler\npackage models\n".toList)], none) := by
  decide

end Tabler
